import Mathlib

/-!
Verification of the Chatterbox text pipeline (auto pauses, multi-voice
segmentation, pronunciation substitution, currency normalization).

Texts are modelled as `List Char`; Python floats are modelled as exact
rationals (`ℚ`); fallible code returns `Except`.  Scanning loops that are
`while` loops in the source are modelled with an explicit fuel parameter
that strictly decreases, with fuel chosen large enough that it never runs
out on the scanned text.
-/

namespace Pipeline

/-- Python `str.isspace` / regex `\s` for the ASCII range. -/
def pyIsSpace (c : Char) : Bool :=
  c = ' ' || c = '\t' || c = '\n' || c = '\r' || c = Char.ofNat 11 || c = Char.ofNat 12

/-- Python `str.isalpha` restricted to ASCII letters (code points compared
numerically). -/
def pyIsAlpha (c : Char) : Bool :=
  (97 ≤ c.toNat && c.toNat ≤ 122) || (65 ≤ c.toNat && c.toNat ≤ 90)

/-- Python `str.isdigit` / regex `\d` for ASCII digits. -/
def pyIsDigit (c : Char) : Bool :=
  48 ≤ c.toNat && c.toNat ≤ 57

/-- Regex `\w` (ASCII): letters, digits and underscore. -/
def pyIsWord (c : Char) : Bool :=
  pyIsAlpha c || pyIsDigit c || c = '_'

/-- Truthiness of Python `s.strip()`: the text holds a non-whitespace char. -/
def hasNonSpace (s : List Char) : Bool :=
  s.any (fun c => !pyIsSpace c)

/-- Python slice `text[a:b]` (half-open, clipped at the ends). -/
def pySlice (text : List Char) (a b : ℕ) : List Char :=
  (text.drop a).take (b - a)

/-- Python slice `text[a:]`. -/
def pySliceFrom (text : List Char) (a : ℕ) : List Char :=
  text.drop a

/-- Value of an ASCII digit character. -/
def digitVal (c : Char) : ℕ := c.toNat - '0'.toNat

/-- Python `int(s)` on a string of ASCII digits. -/
def digitsToNat (s : List Char) : ℕ :=
  s.foldl (fun acc c => 10 * acc + digitVal c) 0

/-- Python `str.lower` for ASCII. -/
def lowerStr (s : List Char) : List Char := s.map Char.toLower

end Pipeline

namespace MultiVoice

open Pipeline

/-- `multi_voice._find_bracket_ranges`: depth-tracking scan over the text;
a span opens at a `[` seen at depth 0 and closes at the `]` that returns
the depth to 0.  State: current index, depth, pending opening index. -/
def findBracketRangesGo : List Char → ℕ → ℕ → Option ℕ → List (ℕ × ℕ) →
    List (ℕ × ℕ)
  | [], _, _, _, acc => acc
  | c :: cs, idx, depth, start, acc =>
    if c = '[' then
      findBracketRangesGo cs (idx + 1) (depth + 1)
        (if depth = 0 then some idx else start) acc
    else if c = ']' && depth > 0 then
      if depth - 1 = 0 then
        match start with
        | some s => findBracketRangesGo cs (idx + 1) (depth - 1) none (acc ++ [(s, idx + 1)])
        | none => findBracketRangesGo cs (idx + 1) (depth - 1) none acc
      else
        findBracketRangesGo cs (idx + 1) (depth - 1) start acc
    else
      findBracketRangesGo cs (idx + 1) depth start acc

/-- `multi_voice._find_bracket_ranges`. -/
def findBracketRanges (text : List Char) : List (ℕ × ℕ) :=
  findBracketRangesGo text 0 0 none []

/-- `multi_voice._is_within_brackets`: membership of a position in any
`range(start, end)`. -/
def isWithinBrackets (position : ℕ) (ranges : List (ℕ × ℕ)) : Bool :=
  ranges.any (fun r => r.1 ≤ position && position < r.2)

/-- Characters allowed in a `<voice:ID>` identifier: `[A-Za-z0-9_-]`. -/
def isVoiceIdChar (c : Char) : Bool :=
  pyIsAlpha c || pyIsDigit c || c = '_' || c = '-'

/-- Attempt to match `_VOICE_DIRECTIVE_RE` = `<voice\s*:\s*([A-Za-z0-9_-]+)\s*>`
at the head of `cs`; on success return the captured identifier together with
the length of the whole match. -/
def matchVoiceDirective (cs : List Char) : Option (List Char × ℕ) :=
  match cs with
  | '<' :: 'v' :: 'o' :: 'i' :: 'c' :: 'e' :: rest =>
    let ws1 := rest.takeWhile pyIsSpace
    let afterWs1 := rest.drop ws1.length
    match afterWs1 with
    | ':' :: rest2 =>
      let ws2 := rest2.takeWhile pyIsSpace
      let afterWs2 := rest2.drop ws2.length
      let ident := afterWs2.takeWhile isVoiceIdChar
      if ident.isEmpty then none
      else
        let afterIdent := afterWs2.drop ident.length
        let ws3 := afterIdent.takeWhile pyIsSpace
        match afterIdent.drop ws3.length with
        | '>' :: _ =>
          some (ident, 6 + ws1.length + 1 + ws2.length + ident.length + ws3.length + 1)
        | _ => none
    | _ => none
  | _ => none

/-- `finditer` for the voice-directive regex: leftmost, non-overlapping
matches, each recorded as `(start, end, identifier)`. -/
def findVoiceDirectivesGo : ℕ → List Char → ℕ → List (ℕ × ℕ × List Char)
  | 0, _, _ => []
  | _, [], _ => []
  | fuel + 1, c :: cs, idx =>
    match matchVoiceDirective (c :: cs) with
    | some (ident, len) =>
      (idx, idx + len, ident) :: findVoiceDirectivesGo fuel ((c :: cs).drop len) (idx + len)
    | none => findVoiceDirectivesGo fuel cs (idx + 1)

/-- All matches of the voice-directive regex in `text`. -/
def findVoiceDirectives (text : List Char) : List (ℕ × ℕ × List Char) :=
  findVoiceDirectivesGo (text.length + 1) text 0

/-- A parsed voice segment: optional voice id and segment text. -/
structure Seg where
  voiceId : Option (List Char)
  text : List Char
deriving DecidableEq, Repr

/-- The loop body of `parse_voice_directives`: walk the directive matches,
emitting the text between `last_index` and each match start whenever it has
non-whitespace content; returns the mid segments together with the final
`last_index` and `current_voice`. -/
def buildSegments (text : List Char) :
    List (ℕ × ℕ × List Char) → ℕ → Option (List Char) →
    List Seg × ℕ × Option (List Char)
  | [], lastIndex, currentVoice => ([], lastIndex, currentVoice)
  | (s, e, ident) :: ms, lastIndex, currentVoice =>
    let segText := pySlice text lastIndex s
    let rest := buildSegments text ms e (some ident)
    if hasNonSpace segText then
      (⟨currentVoice, segText⟩ :: rest.1, rest.2)
    else
      rest

/-- Directive matches that survive the bracket filter in
`parse_voice_directives`. -/
def directiveMatches (text : List Char) : List (ℕ × ℕ × List Char) :=
  (findVoiceDirectives text).filter
    (fun m => !isWithinBrackets m.1 (findBracketRanges text))

/-- The mid segments (those produced before the tail logic). -/
def midSegs (text : List Char) : List Seg :=
  (buildSegments text (directiveMatches text) 0 none).1

/-- `last_index` after the directive loop. -/
def lastIndexAfter (text : List Char) : ℕ :=
  (buildSegments text (directiveMatches text) 0 none).2.1

/-- `current_voice` after the directive loop. -/
def lastVoice (text : List Char) : Option (List Char) :=
  (buildSegments text (directiveMatches text) 0 none).2.2

/-- Trailing text after the last (unfiltered) directive. -/
def tailText (text : List Char) : List Char :=
  pySliceFrom text (lastIndexAfter text)

/-- `multi_voice.parse_voice_directives`. -/
def parse_voice_directives (text : List Char) : List Seg :=
  let segs := midSegs text
  let tail := tailText text
  if hasNonSpace tail || segs.isEmpty then
    segs ++ [⟨lastVoice text, tail⟩]
  else
    segs

end MultiVoice

namespace MultiVoice

open Pipeline

/-- Every mid segment produced by the directive loop has non-whitespace text
(the loop only appends a segment when `segment_text.strip()` is truthy). -/
theorem buildSegments_nonblank (text : List Char) :
    ∀ (ms : List (ℕ × ℕ × List Char)) (lastIndex : ℕ)
      (currentVoice : Option (List Char)) (seg : Seg),
      seg ∈ (buildSegments text ms lastIndex currentVoice).1 →
      hasNonSpace seg.text = true := by
  intro ms
  induction ms with
  | nil => intro lastIndex currentVoice seg h; simp [buildSegments] at h
  | cons m ms ih =>
    intro lastIndex currentVoice seg h
    obtain ⟨s, e, ident⟩ := m
    simp only [buildSegments] at h
    by_cases hs : hasNonSpace (pySlice text lastIndex s) = true
    · simp only [hs, if_pos] at h
      rcases List.mem_cons.mp h with h1 | h2
      · subst h1; exact hs
      · exact ih e (some ident) seg h2
    · simp only [Bool.not_eq_true] at hs
      simp only [hs, Bool.false_eq_true, if_false] at h
      exact ih e (some ident) seg h

/-- C10: every segment returned by `parse_voice_directives` except possibly
the final one has text containing at least one non-whitespace character. -/
theorem parse_voice_directives_mid_nonblank (text : List Char) :
    ∀ seg ∈ (parse_voice_directives text).dropLast, hasNonSpace seg.text = true := by
  intro seg hseg
  unfold parse_voice_directives at hseg
  by_cases h : (hasNonSpace (tailText text) || (midSegs text).isEmpty) = true
  · simp only [h, if_pos] at hseg
    rw [List.dropLast_concat] at hseg
    exact buildSegments_nonblank text _ _ _ seg hseg
  · simp only [h] at hseg
    exact buildSegments_nonblank text _ _ _ seg
      ((List.dropLast_sublist _).subset hseg)

/-- Witness for C10 at a concrete input: in
`"<voice:a>x<voice:b> <voice:c>done"` the whitespace-only text between the
second and third directives yields no segment, and the one non-final segment
is nonblank. -/
theorem parse_voice_directives_mid_nonblank_witness :
    hasNonSpace (Seg.mk (some (("a").data)) (("x").data)).text = true :=
  parse_voice_directives_mid_nonblank
    (("<voice:a>x<voice:b> <voice:c>done").data) _ (by decide)

/-- C2 counterexample: in `"<voice:a>hi<voice:b>"` the trailing text after the
last directive is empty and it is NOT the only candidate segment (a mid
segment exists), yet it does not become its own segment — the result ends
with the `"hi"` segment, not with an empty-text segment for voice `b`. -/
theorem parse_voice_directives_tail_counterexample :
    parse_voice_directives (("<voice:a>hi<voice:b>").data) =
      [Seg.mk (some (("a").data)) (("hi").data)] ∧
    tailText (("<voice:a>hi<voice:b>").data) = [] ∧
    midSegs (("<voice:a>hi<voice:b>").data) ≠ [] := by
  refine ⟨by decide, by decide, by decide⟩

/-- C2 amended: the result of `parse_voice_directives` is never empty; the
trailing text after the last directive becomes its own (final) segment
exactly when it contains a non-whitespace character or when no other segment
was produced (in particular an empty trailing text is dropped whenever a mid
segment exists). -/
theorem parse_voice_directives_tail (text : List Char) :
    parse_voice_directives text ≠ [] ∧
    (hasNonSpace (tailText text) = true ∨ midSegs text = [] →
      parse_voice_directives text =
        midSegs text ++ [Seg.mk (lastVoice text) (tailText text)]) ∧
    (hasNonSpace (tailText text) = false ∧ midSegs text ≠ [] →
      parse_voice_directives text = midSegs text) := by
  by_cases h : (hasNonSpace (tailText text) || (midSegs text).isEmpty) = true
  · have hres : parse_voice_directives text =
        midSegs text ++ [Seg.mk (lastVoice text) (tailText text)] := by
      unfold parse_voice_directives
      simp only [h, if_pos]
    refine ⟨by simp [hres], fun _ => hres, ?_⟩
    rintro ⟨h1, h2⟩
    rcases Bool.or_eq_true_iff.mp h with h3 | h3
    · exact absurd h3 (by simp [h1])
    · exact absurd (List.isEmpty_iff.mp h3) h2
  · have hres : parse_voice_directives text = midSegs text := by
      unfold parse_voice_directives
      rw [if_neg h]
    have h' := h
    simp only [Bool.or_eq_true_iff, not_or, Bool.not_eq_true] at h'
    refine ⟨?_, ?_, fun _ => hres⟩
    · rw [hres]
      intro hc
      rw [hc] at h'
      simp [List.isEmpty] at h'
    · rintro (h1 | h1)
      · exact absurd h1 (by simp [h'.1])
      · exact absurd h1 (by simpa [List.isEmpty_iff] using h'.2)

/-- Witness for the amended C2 at concrete inputs: a text with a nonblank
tail keeps it as final segment, and the counterexample text drops its blank
tail. -/
theorem parse_voice_directives_tail_witness :
    parse_voice_directives (("<voice:a>hi").data) =
      midSegs (("<voice:a>hi").data) ++
        [Seg.mk (lastVoice (("<voice:a>hi").data)) (tailText (("<voice:a>hi").data))] ∧
    parse_voice_directives (("<voice:a>hi<voice:b>").data) =
      midSegs (("<voice:a>hi<voice:b>").data) :=
  ⟨(parse_voice_directives_tail _).2.1 (Or.inl (by decide)),
   (parse_voice_directives_tail _).2.2 ⟨by decide, by decide⟩⟩

end MultiVoice

namespace TextNorm

open Pipeline

/-- `text_normalization.ONES`. -/
def ONES : List (List Char) :=
  [("zero").data, ("one").data, ("two").data, ("three").data, ("four").data,
   ("five").data, ("six").data, ("seven").data, ("eight").data, ("nine").data]

/-- `text_normalization.TEENS`. -/
def TEENS : List (List Char) :=
  [("ten").data, ("eleven").data, ("twelve").data, ("thirteen").data,
   ("fourteen").data, ("fifteen").data, ("sixteen").data, ("seventeen").data,
   ("eighteen").data, ("nineteen").data]

/-- `text_normalization.TENS`. -/
def TENS : List (List Char) :=
  [[], [], ("twenty").data, ("thirty").data, ("forty").data, ("fifty").data,
   ("sixty").data, ("seventy").data, ("eighty").data, ("ninety").data]

/-- Inner helper `two_digit_words` of `int_to_words_us`. -/
def two_digit_words (num : ℕ) : List Char :=
  if num < 10 then ONES.getD num []
  else if num < 20 then TEENS.getD (num - 10) []
  else
    let tensVal := num / 10
    let onesVal := num % 10
    if onesVal = 0 then TENS.getD tensVal []
    else TENS.getD tensVal [] ++ ' ' :: ONES.getD onesVal []

/-- Inner helper `three_digit_words` of `int_to_words_us`: builds the parts
list exactly as the source does and joins it, falling back to `"zero"`. -/
def three_digit_words (num : ℕ) : List Char :=
  let hundreds := num / 100
  let rem := num % 100
  let parts : List (List Char) :=
    (if hundreds ≠ 0 then [ONES.getD hundreds [] ++ (" hundred").data] else []) ++
    (if rem ≠ 0 then
      (if hundreds ≠ 0 then [(", ").data] else []) ++ [two_digit_words rem]
     else [])
  if parts.isEmpty then ("zero").data else parts.flatten

/-- The `ValueError` message of `int_to_words_us`. -/
def rangeErrorMsg : List Char :=
  ("int_to_words_us supports values from 0 to 999,999,999.").data

/-- `text_normalization.int_to_words_us`: raises (here: returns `.error`)
outside `0..999_999_999`, otherwise assembles million/thousand/units groups. -/
def int_to_words_us (n : ℤ) : Except (List Char) (List Char) :=
  if n < 0 ∨ n > 999999999 then .error rangeErrorMsg
  else if n = 0 then .ok (("zero").data)
  else
    let nn := n.toNat
    let millions := nn / 1000000
    let remainder := nn % 1000000
    let thousands := remainder / 1000
    let below := remainder % 1000
    let parts1 : List (List Char) :=
      if millions ≠ 0 then [three_digit_words millions ++ (" million").data] else []
    let parts2 : List (List Char) :=
      parts1 ++
        (if thousands ≠ 0 then
          (if ¬parts1.isEmpty then [(", ").data] else []) ++
            [three_digit_words thousands ++ (" thousand").data]
         else [])
    let parts3 : List (List Char) :=
      parts2 ++
        (if below ≠ 0 ∨ parts2.isEmpty then
          (if ¬parts2.isEmpty ∧ below ≠ 0 then [(", ").data] else []) ++
            [three_digit_words below]
         else [])
    .ok parts3.flatten

/-- Join a list of strings with `", "` separators. -/
def joinComma : List (List Char) → List Char
  | [] => []
  | [s] => s
  | s :: s' :: rest => s ++ (", ").data ++ joinComma (s' :: rest)

/-- Specification-side three-digit formatter, following the spec's words:
an optional `"<ones> hundred"` part and an optional two-digit part joined
with `", "`, with `"zero"` for 0. -/
def specThreeDigit (num : ℕ) : List Char :=
  if num = 0 then ("zero").data
  else
    joinComma
      ((if num / 100 ≠ 0 then [ONES.getD (num / 100) [] ++ (" hundred").data] else []) ++
       (if num % 100 ≠ 0 then [two_digit_words (num % 100)] else []))

/-- Specification-side words function, following the spec's words: the
nonzero million/thousand/units groups, each formatted by the three-digit
formatter, joined with `", "`; `"zero"` for 0. -/
def wordsSpec (n : ℕ) : List Char :=
  if n = 0 then ("zero").data
  else
    joinComma
      ((if n / 1000000 ≠ 0 then [specThreeDigit (n / 1000000) ++ (" million").data] else []) ++
       (if n % 1000000 / 1000 ≠ 0 then
          [specThreeDigit (n % 1000000 / 1000) ++ (" thousand").data] else []) ++
       (if n % 1000000 % 1000 ≠ 0 then [specThreeDigit (n % 1000000 % 1000)] else []))

end TextNorm

namespace TextNorm

open Pipeline

/-- The source's `three_digit_words` agrees with the spec-side three-digit
formatter on every input. -/
theorem three_digit_words_eq_spec (num : ℕ) :
    three_digit_words num = specThreeDigit num := by
  by_cases h0 : num = 0
  · subst h0; rfl
  · by_cases h1 : num / 100 = 0 <;> by_cases h2 : num % 100 = 0
    · exact absurd (by omega) h0
    · simp [three_digit_words, specThreeDigit, h0, h1, h2, joinComma]
    · simp [three_digit_words, specThreeDigit, h0, h1, h2, joinComma]
    · simp [three_digit_words, specThreeDigit, h0, h1, h2, joinComma]

/-- On the accepted range `0..999_999_999`, `int_to_words_us` returns the
spec-side words: nonzero million/thousand/units groups joined with `", "`. -/
theorem int_to_words_us_range_ok (n : ℤ) (h0 : 0 ≤ n) (h9 : n ≤ 999999999) :
    int_to_words_us n = .ok (wordsSpec n.toNat) := by
  unfold int_to_words_us
  rw [if_neg (by omega)]
  by_cases hz : n = 0
  · subst hz; rfl
  · rw [if_neg hz]
    have hnz : n.toNat ≠ 0 := by omega
    unfold wordsSpec
    rw [if_neg hnz]
    by_cases hm : n.toNat / 1000000 = 0 <;>
      by_cases ht : n.toNat % 1000000 / 1000 = 0 <;>
        by_cases hb : n.toNat % 1000000 % 1000 = 0
    · exact absurd (by omega) hnz
    all_goals
      simp [hm, ht, hb, three_digit_words_eq_spec, joinComma]

/-- C7: `int_to_words_us` fails exactly outside `0..999_999_999` and on the
accepted range returns the spec-side American-English words (three-digit
groups joined with `", "`), with `"zero"` for 0 and
`657 ↦ "six hundred, fifty seven"`. -/
theorem int_to_words_us_contract :
    (∀ n : ℤ, (∃ e, int_to_words_us n = .error e) ↔ (n < 0 ∨ 999999999 < n)) ∧
    (∀ n : ℤ, 0 ≤ n → n ≤ 999999999 →
      int_to_words_us n = .ok (wordsSpec n.toNat)) ∧
    int_to_words_us 657 = .ok (("six hundred, fifty seven").data) ∧
    int_to_words_us 0 = .ok (("zero").data) ∧
    int_to_words_us 15348 = .ok (("fifteen thousand, three hundred, forty eight").data) := by
  refine ⟨?_, int_to_words_us_range_ok, rfl, rfl, rfl⟩
  intro n
  constructor
  · rintro ⟨e, he⟩
    by_contra hcon
    push_neg at hcon
    rw [int_to_words_us_range_ok n (by omega) (by omega)] at he
    exact Except.noConfusion he
  · intro h
    refine ⟨rangeErrorMsg, ?_⟩
    unfold int_to_words_us
    rw [if_pos (by omega)]

/-- Witness for C7 at concrete inputs: 657 is in range and converts, and
-5 is rejected. -/
theorem int_to_words_us_contract_witness :
    int_to_words_us 657 = .ok (wordsSpec (657 : ℤ).toNat) ∧
    (∃ e, int_to_words_us (-5) = .error e) :=
  ⟨int_to_words_us_contract.2.1 657 (by decide) (by decide),
   (int_to_words_us_contract.1 (-5)).mpr (by decide)⟩

end TextNorm

namespace TextNorm

open Pipeline

/-- `text_normalization._find_protected_spans`, i.e. `finditer` of
`\[[^\]]*\]`: each match runs from a `[` to the first `]` after it. -/
def findProtectedSpansGo : ℕ → List Char → ℕ → List (ℕ × ℕ)
  | 0, _, _ => []
  | _ + 1, [], _ => []
  | fuel + 1, c :: cs, idx =>
    if c = '[' then
      match cs.findIdx? (fun d => d = ']') with
      | some j => (idx, idx + j + 2) :: findProtectedSpansGo fuel (cs.drop (j + 1)) (idx + j + 2)
      | none => findProtectedSpansGo fuel cs (idx + 1)
    else findProtectedSpansGo fuel cs (idx + 1)

/-- `text_normalization._find_protected_spans`. -/
def findProtectedSpans (text : List Char) : List (ℕ × ℕ) :=
  findProtectedSpansGo (text.length + 1) text 0

/-- `text_normalization._apply_to_unprotected_segments`: transform the text
between and after the spans, copy the spans verbatim; a failing transform
propagates. -/
def applyToUnprotectedGo (transform : List Char → Except (List Char) (List Char))
    (text : List Char) : List (ℕ × ℕ) → ℕ → Except (List Char) (List Char)
  | [], lastIndex =>
    if lastIndex < text.length then transform (pySliceFrom text lastIndex) else .ok []
  | (s, e) :: rest, lastIndex =>
    match (if lastIndex < s then transform (pySlice text lastIndex s) else .ok []) with
    | .error err => .error err
    | .ok headPart =>
      match applyToUnprotectedGo transform text rest e with
      | .error err => .error err
      | .ok tailPart => .ok (headPart ++ pySlice text s e ++ tailPart)

/-- Maximal run of `(?:,\d{3})` groups (each a comma and exactly three
digits), as matched greedily by the currency regex. -/
def takeCommaGroups : ℕ → List Char → List Char
  | 0, _ => []
  | fuel + 1, ',' :: a :: b :: c :: rest =>
    if pyIsDigit a && pyIsDigit b && pyIsDigit c then
      ',' :: a :: b :: c :: takeCommaGroups fuel rest
    else []
  | _ + 1, _ => []

/-- Match the currency regex `\$((?:\d{1,3}(?:,\d{3})+)|\d+)(?:\.(\d{1,2}))?`
immediately after a `$`: returns the two captured groups.  The comma-grouped
alternative applies exactly when the leading digit run has length ≤ 3 and at
least one full `,ddd` group follows; otherwise the plain digit run is the
first group.  The cents group takes one or two digits after a dot. -/
def matchCurrencyAt (rest : List Char) : Option (List Char × Option (List Char)) :=
  let digits := rest.takeWhile pyIsDigit
  if digits.isEmpty then none
  else
    let groups :=
      if digits.length ≤ 3 then takeCommaGroups rest.length (rest.drop digits.length)
      else []
    let g1 := digits ++ groups
    let cents : Option (List Char) :=
      match rest.drop g1.length with
      | '.' :: d1 :: d2 :: _ =>
        if pyIsDigit d1 then (if pyIsDigit d2 then some [d1, d2] else some [d1]) else none
      | ['.', d1] => if pyIsDigit d1 then some [d1] else none
      | _ => none
    some (g1, cents)

/-- The cents computation inside `replace_match`: no cents group means 0,
a single digit is scaled by ten, otherwise the digits are read directly. -/
def centsValue (centsStr : Option (List Char)) : ℕ :=
  match centsStr with
  | none => 0
  | some cs => if cs.length = 1 then digitsToNat cs * 10 else digitsToNat cs

/-- `replace_match` inside `normalize_currency_usd`; a raising
`int_to_words_us` propagates as `.error`. -/
def replace_match (dollarsStr : List Char) (centsStr : Option (List Char))
    (maxValue : ℕ) : Except (List Char) (List Char) :=
  let dollarsInt := digitsToNat (dollarsStr.filter (fun c => c ≠ ','))
  if dollarsInt > maxValue then
    .ok ('$' :: dollarsStr ++ (match centsStr with | some cs => '.' :: cs | none => []))
  else
    let centsInt : ℕ := centsValue centsStr
    if dollarsInt = 0 ∧ centsInt > 0 then
      match int_to_words_us (centsInt : ℤ) with
      | .error e => .error e
      | .ok centsWords =>
        .ok (centsWords ++ ' ' :: (if centsInt = 1 then ("cent").data else ("cents").data))
    else
      match int_to_words_us (dollarsInt : ℤ) with
      | .error e => .error e
      | .ok dollarsWords =>
        let dollarLabel := if dollarsInt = 1 then ("dollar").data else ("dollars").data
        if centsInt = 0 then
          if dollarsInt = 0 then .ok (("zero dollars").data)
          else .ok (dollarsWords ++ ' ' :: dollarLabel)
        else
          match int_to_words_us (centsInt : ℤ) with
          | .error e => .error e
          | .ok centsWords =>
            .ok (dollarsWords ++ ' ' :: dollarLabel ++ (" and ").data ++ centsWords ++
              ' ' :: (if centsInt = 1 then ("cent").data else ("cents").data))

/-- `currency_pattern.sub(replace_match, segment)`: left-to-right,
non-overlapping replacement of currency matches. -/
def currencySubGo (maxValue : ℕ) : ℕ → List Char → Except (List Char) (List Char)
  | 0, cs => .ok cs
  | _ + 1, [] => .ok []
  | fuel + 1, c :: cs =>
    if c = '$' then
      match matchCurrencyAt cs with
      | some (g1, cents) =>
        match replace_match g1 cents maxValue with
        | .error e => .error e
        | .ok rep =>
          let consumed := g1.length + (match cents with | some l => 1 + l.length | none => 0)
          match currencySubGo maxValue fuel (cs.drop consumed) with
          | .error e => .error e
          | .ok rest => .ok (rep ++ rest)
      | none =>
        match currencySubGo maxValue fuel cs with
        | .error e => .error e
        | .ok rest => .ok (c :: rest)
    else
      match currencySubGo maxValue fuel cs with
      | .error e => .error e
      | .ok rest => .ok (c :: rest)

/-- The `transform` closure of `normalize_currency_usd`. -/
def currencyTransform (maxValue : ℕ) (segment : List Char) :
    Except (List Char) (List Char) :=
  currencySubGo maxValue (segment.length + 1) segment

/-- `text_normalization.normalize_currency_usd` (the `max_value is None`
defaulting is modelled by the caller passing 999999999). -/
def normalize_currency_usd (text : List Char) (maxValue : ℕ) :
    Except (List Char) (List Char) :=
  let spans := findProtectedSpans text
  if spans.isEmpty then currencyTransform maxValue text
  else applyToUnprotectedGo (currencyTransform maxValue) text spans 0

/-- Specification-side rendering of one currency match, following the spec's
words: untouched above `max_value`; a single cent digit scaled by ten;
cents-only for zero dollars and nonzero cents; `"zero dollars"` for 0/0;
labels pluralized except for exactly 1.  The cents value follows the spec's
single-digit-scaled-by-ten rule. -/
def centsValueSpec (centsStr : Option (List Char)) : ℕ :=
  match centsStr with
  | none => 0
  | some [ch] => digitVal ch * 10
  | some cs => digitsToNat cs

/-- Specification-side rendering of one currency match (see
`replaceMatchSpec` doc below). -/
def replaceMatchSpec (dollarsStr : List Char) (centsStr : Option (List Char))
    (maxValue : ℕ) : List Char :=
  let d := digitsToNat (dollarsStr.filter (fun c => c ≠ ','))
  let c : ℕ := centsValueSpec centsStr
  if d > maxValue then
    '$' :: dollarsStr ++ (match centsStr with | some cs => '.' :: cs | none => [])
  else if d = 0 ∧ c = 0 then ("zero dollars").data
  else if d = 0 then
    wordsSpec c ++ ' ' :: (if c = 1 then ("cent").data else ("cents").data)
  else if c = 0 then
    wordsSpec d ++ ' ' :: (if d = 1 then ("dollar").data else ("dollars").data)
  else
    wordsSpec d ++ ' ' :: (if d = 1 then ("dollar").data else ("dollars").data) ++
      (" and ").data ++ wordsSpec c ++ ' ' :: (if c = 1 then ("cent").data else ("cents").data)

end TextNorm

namespace TextNorm

open Pipeline

/-- An ASCII digit character has value at most 9. -/
theorem digitVal_le_nine {c : Char} (h : pyIsDigit c = true) : digitVal c ≤ 9 := by
  unfold pyIsDigit at h
  simp only [Bool.and_eq_true, decide_eq_true_eq] at h
  unfold digitVal
  rw [show ('0').toNat = 48 from rfl]
  omega

/-- A cents group (at most two ASCII digits) has value at most 99. -/
theorem digitsToNat_cents_le {cs : List Char}
    (hlen : cs.length ≤ 2) (hdig : cs.all pyIsDigit = true) :
    digitsToNat cs ≤ 99 := by
  match cs, hlen with
  | [], _ => simp [digitsToNat]
  | [a], _ =>
    simp only [List.all_cons, List.all_nil, Bool.and_eq_true, and_true] at hdig
    have := digitVal_le_nine hdig
    simp only [digitsToNat, List.foldl]
    omega
  | [a, b], _ =>
    simp only [List.all_cons, List.all_nil, Bool.and_eq_true, and_true] at hdig
    have ha := digitVal_le_nine hdig.1
    have hb := digitVal_le_nine hdig.2
    simp only [digitsToNat, List.foldl]
    omega

/-- `int_to_words_us` on a natural number within range, phrased over `ℕ`. -/
theorem int_to_words_us_nat (m : ℕ) (h : m ≤ 999999999) :
    int_to_words_us (m : ℤ) = .ok (wordsSpec m) := by
  have := int_to_words_us_range_ok (m : ℤ) (by positivity) (by exact_mod_cast h)
  rwa [Int.toNat_natCast] at this

/-- The source's cents computation agrees with the spec-side one. -/
theorem centsValue_eq_spec (centsStr : Option (List Char)) :
    centsValue centsStr = centsValueSpec centsStr := by
  match centsStr with
  | none => rfl
  | some [] => rfl
  | some [a] => simp [centsValue, centsValueSpec, digitsToNat]
  | some (a :: b :: t) => simp [centsValue, centsValueSpec]

/-- A regex-shaped cents group (1–2 ASCII digits, or absent) has a small
value. -/
theorem centsValueSpec_le (centsStr : Option (List Char))
    (hcents : match centsStr with
      | none => True
      | some cs => cs.length ≤ 2 ∧ cs.all pyIsDigit = true) :
    centsValueSpec centsStr ≤ 999999999 := by
  match centsStr, hcents with
  | none, _ => simp [centsValueSpec]
  | some [], h => simp [centsValueSpec, digitsToNat]
  | some [a], h =>
    simp only [List.all_cons, List.all_nil, Bool.and_eq_true, and_true] at h
    have := digitVal_le_nine h.2
    simp only [centsValueSpec]
    omega
  | some (a :: b :: t), h =>
    have := digitsToNat_cents_le h.1 h.2
    match t with
    | [] => simp only [centsValueSpec]; omega
    | _ :: _ => simp at h

/-- C6 core: for every matched amount, `replace_match` succeeds and returns
exactly the spec-side rendering, provided the configured ceiling does not
exceed the words-conversion range and the cents group is a 1–2 digit
string (as the regex guarantees). -/
theorem replace_match_eq_spec (dollarsStr : List Char) (centsStr : Option (List Char))
    (maxValue : ℕ) (hmax : maxValue ≤ 999999999)
    (hcents : match centsStr with
      | none => True
      | some cs => cs.length ≤ 2 ∧ cs.all pyIsDigit = true) :
    replace_match dollarsStr centsStr maxValue =
      .ok (replaceMatchSpec dollarsStr centsStr maxValue) := by
  have hcle := centsValueSpec_le centsStr hcents
  unfold replace_match replaceMatchSpec
  rw [centsValue_eq_spec]
  generalize hD : digitsToNat (dollarsStr.filter (fun c => c ≠ ',')) = d
  generalize hC : centsValueSpec centsStr = c at hcle
  by_cases hgt : d > maxValue
  · rw [if_pos hgt, if_pos hgt]
  · rw [if_neg hgt, if_neg hgt]
    have hdle : d ≤ 999999999 := by omega
    simp only [int_to_words_us_nat _ hdle, int_to_words_us_nat _ hcle]
    by_cases hd0 : d = 0 <;> by_cases hc0 : c = 0
    · simp [hd0, hc0]
    · have hcpos : c > 0 := Nat.pos_of_ne_zero hc0
      simp [hd0, hc0, hcpos]
    · simp [hd0, hc0]
    · simp [hd0, hc0]

/-- C6: every matched amount outside protected spans is rewritten per the
spec rules (single cent digit ×10, bypass above `max_value`, cents-only,
`"zero dollars"`, pluralization), and the three anchor examples hold (the
bypass example and the single-cent-digit example included). -/
theorem normalize_currency_usd_rules :
    (∀ (dollarsStr : List Char) (centsStr : Option (List Char)) (maxValue : ℕ),
      maxValue ≤ 999999999 →
      (match centsStr with
        | none => True
        | some cs => cs.length ≤ 2 ∧ cs.all pyIsDigit = true) →
      replace_match dollarsStr centsStr maxValue =
        .ok (replaceMatchSpec dollarsStr centsStr maxValue)) ∧
    normalize_currency_usd (("$657.62").data) 999999999 =
      .ok (("six hundred, fifty seven dollars and sixty two cents").data) ∧
    normalize_currency_usd (("$0.05").data) 999999999 =
      .ok (("five cents").data) ∧
    normalize_currency_usd (("$0.00").data) 999999999 =
      .ok (("zero dollars").data) ∧
    normalize_currency_usd (("$657.6").data) 999999999 =
      .ok (("six hundred, fifty seven dollars and sixty cents").data) ∧
    normalize_currency_usd (("$1000000000").data) 999999999 =
      .ok (("$1000000000").data) :=
  ⟨replace_match_eq_spec, rfl, rfl, rfl, rfl, rfl⟩

/-- Witness for C6 at a concrete match: the `$657.62` match rewritten by
`replace_match` agrees with the spec rendering. -/
theorem normalize_currency_usd_rules_witness :
    replace_match (("657").data) (some (("62").data)) 999999999 =
      .ok (replaceMatchSpec (("657").data) (some (("62").data)) 999999999) :=
  normalize_currency_usd_rules.1 _ _ _ (by decide) ⟨by decide, by decide⟩

end TextNorm

namespace Pron

open Pipeline

/-- `pronunciation.TOKEN_CHARS_CLASS` = `[A-Za-z0-9']`. -/
def isTokenChar (c : Char) : Bool :=
  pyIsAlpha c || pyIsDigit c || c = '\''

/-- `pronunciation._find_bracket_spans`: `finditer` of the same pattern
`\[[^\]]*\]` as `text_normalization._find_protected_spans`, hence modelled
by the same scanner. -/
def findBracketSpans (text : List Char) : List (ℕ × ℕ) :=
  TextNorm.findProtectedSpansGo (text.length + 1) text 0

/-- Loop of `pronunciation._split_by_brackets`. -/
def splitByBracketsGo (text : List Char) : List (ℕ × ℕ) → ℕ → List (Bool × List Char)
  | [], lastIndex =>
    if lastIndex < text.length then [(false, pySliceFrom text lastIndex)] else []
  | (s, e) :: rest, lastIndex =>
    (if lastIndex < s then [(false, pySlice text lastIndex s)] else []) ++
      (true, pySlice text s e) :: splitByBracketsGo text rest e

/-- `pronunciation._split_by_brackets`. -/
def splitByBrackets (text : List Char) : List (Bool × List Char) :=
  let spans := findBracketSpans text
  if spans.isEmpty then [(false, text)]
  else splitByBracketsGo text spans 0

/-- Lexicographic (code-point) string comparison, Python `a <= b`. -/
def charListLe : List Char → List Char → Bool
  | [], _ => true
  | _ :: _, [] => false
  | x :: xs, y :: ys =>
    if x.toNat < y.toNat then true
    else if y.toNat < x.toNat then false
    else charListLe xs ys

/-- The sort key `(-len(k), k)` of `_build_replacement_patterns`, as a
relation: `a` goes before (or equals) `b`. -/
def keyBefore (a b : List Char) : Bool :=
  decide (b.length < a.length) || (decide (a.length = b.length) && charListLe a b)

/-- `sorted(keys, key=lambda k: (-len(k), k))`: longest first, then
lexicographically ascending (stable insertion sort). -/
def orderedKeys (keys : List (List Char)) : List (List Char) :=
  keys.insertionSort (fun a b => keyBefore a b = true)

/-- `mapping[key]` on the association-list model of the dict. -/
def lookupVal (mapping : List (List Char × List Char)) (k : List Char) : List Char :=
  match mapping.find? (fun p => p.1 = k) with
  | some p => p.2
  | none => []

/-- One global sweep of `pattern.sub` for the whole-word pattern
`(?<![A-Za-z0-9'])key(?![A-Za-z0-9'])`: scan the segment left to right
tracking the previous original character; at a match copy the replacement
and resume after the matched key.  (A zero-length key is treated as never
matching.) -/
def wholeWordSubGo (key val : List Char) : ℕ → Option Char → List Char → List Char
  | 0, _, rest => rest
  | _ + 1, _, [] => []
  | fuel + 1, prev, c :: cs =>
    if (match prev with | none => true | some p => !isTokenChar p) &&
        !key.isEmpty && key.isPrefixOf (c :: cs) &&
        (match (c :: cs).drop key.length with
          | [] => true
          | d :: _ => !isTokenChar d) then
      val ++ wholeWordSubGo key val fuel key.getLast? ((c :: cs).drop key.length)
    else
      c :: wholeWordSubGo key val fuel (some c) cs

/-- One whole-word replacement sweep over a segment. -/
def wholeWordSub (key val segment : List Char) : List Char :=
  wholeWordSubGo key val (segment.length + 1) none segment

/-- `pronunciation._apply_to_segment`: apply each key's sweep in the fixed
deterministic order. -/
def applySegment (mapping : List (List Char × List Char)) (segment : List Char) :
    List Char :=
  if mapping.isEmpty then segment
  else
    (orderedKeys (mapping.map Prod.fst)).foldl
      (fun seg k => wholeWordSub k (lookupVal mapping k) seg) segment

/-- `pronunciation.apply_pronunciation_dict`. -/
def apply_pronunciation_dict (text : List Char)
    (mapping : List (List Char × List Char)) : List Char :=
  if text.isEmpty || mapping.isEmpty then text
  else
    ((splitByBrackets text).map
      (fun pc => if pc.1 then pc.2 else applySegment mapping pc.2)).flatten

/-- Specification-side formulation, following the spec's words: each
key/value pair, in the fixed order (descending length, then lexicographic),
is applied as an independent global replacement sweep across the
unprotected segments. -/
def applyPronunciationSpec (text : List Char)
    (mapping : List (List Char × List Char)) : List Char :=
  if text.isEmpty || mapping.isEmpty then text
  else
    (((orderedKeys (mapping.map Prod.fst)).foldl
        (fun chunks k =>
          chunks.map (fun pc =>
            if pc.1 then pc else (pc.1, wholeWordSub k (lookupVal mapping k) pc.2)))
        (splitByBrackets text)).map Prod.snd).flatten

end Pron

namespace Pron

open Pipeline

/-- Sweeping each key over every unprotected chunk (source order: per chunk,
then per key) commutes with the spec's order (per key, then per chunk). -/
theorem foldl_map_comm (step : List Char → List Char → List Char) :
    ∀ (keys : List (List Char)) (chunks : List (Bool × List Char)),
      chunks.map (fun pc =>
        if pc.1 then pc.2 else keys.foldl (fun seg k => step k seg) pc.2) =
      (keys.foldl
        (fun chs k => chs.map (fun pc =>
          if pc.1 then pc else (pc.1, step k pc.2))) chunks).map Prod.snd := by
  intro keys
  induction keys with
  | nil =>
    intro chunks
    simp [List.foldl_nil]
  | cons k ks ih =>
    intro chunks
    simp only [List.foldl_cons]
    rw [← ih (chunks.map (fun pc => if pc.1 then pc else (pc.1, step k pc.2))),
      List.map_map]
    apply List.map_congr_left
    intro pc _
    rcases pc with ⟨b, s⟩
    cases b <;> simp

/-- C8: `apply_pronunciation_dict` equals the spec-side formulation (each
key applied, in descending-length-then-lexicographic order, as an
independent global sweep across the unprotected segments); the ordering on
a concrete key set and the whole-word boundary examples from the spec. -/
theorem apply_pronunciation_dict_deterministic :
    (∀ (text : List Char) (mapping : List (List Char × List Char)),
      apply_pronunciation_dict text mapping = applyPronunciationSpec text mapping) ∧
    orderedKeys [("ab").data, ("b").data, ("aa").data, ("ccc").data] =
      [("ccc").data, ("aa").data, ("ab").data, ("b").data] ∧
    apply_pronunciation_dict (("Zilog makes").data)
      [(("Zilog").data, ("ZY-log").data)] = (("ZY-log makes").data) ∧
    apply_pronunciation_dict (("Zilog,").data)
      [(("Zilog").data, ("ZY-log").data)] = (("ZY-log,").data) ∧
    apply_pronunciation_dict (("Zilogic is different").data)
      [(("Zilog").data, ("ZY-log").data)] = (("Zilogic is different").data) ∧
    apply_pronunciation_dict (("Hello[laugh] Zilog").data)
      [(("Zilog").data, ("ZY-log").data)] = (("Hello[laugh] ZY-log").data) ∧
    apply_pronunciation_dict (("Zilog builds in the US, not US Zilogic.").data)
      [(("US").data, ("you ess").data), (("Zilog").data, ("ZY-log").data)] =
      (("ZY-log builds in the you ess, not you ess Zilogic.").data) := by
  refine ⟨?_, by decide, rfl, rfl, rfl, rfl, rfl⟩
  intro text mapping
  unfold apply_pronunciation_dict applyPronunciationSpec
  by_cases h : (text.isEmpty || mapping.isEmpty) = true
  · rw [if_pos h, if_pos h]
  · rw [if_neg h, if_neg h]
    have hm : mapping.isEmpty ≠ true := by
      intro hc
      exact h (by simp [hc])
    have hseg : ∀ pc : Bool × List Char,
        (if pc.1 then pc.2 else applySegment mapping pc.2) =
        (if pc.1 then pc.2
         else (orderedKeys (mapping.map Prod.fst)).foldl
           (fun seg k => wholeWordSub k (lookupVal mapping k) seg) pc.2) := by
      intro pc
      rcases pc with ⟨b, s⟩
      cases b <;> simp [applySegment, hm]
    rw [List.map_congr_left (fun pc _ => hseg pc)]
    rw [foldl_map_comm (fun k seg => wholeWordSub k (lookupVal mapping k) seg)]

end Pron

namespace AutoPauses

open Pipeline

/-- `finditer` scanner for `BRACKET_TOKEN_PATTERN` = `\[[^\[\]]+\]`: a `[`,
a nonempty run of non-bracket characters, then a `]`. -/
def bracketSpansGo : ℕ → List Char → ℕ → List (ℕ × ℕ)
  | 0, _, _ => []
  | _ + 1, [], _ => []
  | fuel + 1, c :: cs, idx =>
    if c = '[' then
      let run := cs.takeWhile (fun d => !(d = '[' || d = ']'))
      if run.isEmpty then bracketSpansGo fuel cs (idx + 1)
      else
        match cs.drop run.length with
        | ']' :: _ =>
          (idx, idx + run.length + 2) ::
            bracketSpansGo fuel (cs.drop (run.length + 1)) (idx + run.length + 2)
        | _ => bracketSpansGo fuel cs (idx + 1)
    else bracketSpansGo fuel cs (idx + 1)

/-- `_find_spans(BRACKET_TOKEN_PATTERN, text)`. -/
def bracketTokenSpans (text : List Char) : List (ℕ × ℕ) :=
  bracketSpansGo (text.length + 1) text 0

/-- Match `\d+(?:\.\d+)?s\]` (the tail of both manual-pause patterns,
`s` case-insensitive) at the head of `cs`, returning its length. -/
def matchPauseDigits (cs : List Char) : Option ℕ :=
  let d1 := cs.takeWhile pyIsDigit
  if d1.isEmpty then none
  else
    match cs.drop d1.length with
    | '.' :: rest2 =>
      let d2 := rest2.takeWhile pyIsDigit
      if d2.isEmpty then none
      else
        match rest2.drop d2.length with
        | s :: ']' :: _ =>
          if s.toLower = 's' then some (d1.length + 1 + d2.length + 2) else none
        | _ => none
    | s :: ']' :: _ => if s.toLower = 's' then some (d1.length + 2) else none
    | _ => none

/-- Match `MANUAL_PAUSE_CANONICAL_PATTERN` = `\[pause:(\d+(?:\.\d+)?)s\]`
(case-insensitive) at the head of `cs`, returning the match length. -/
def matchCanonicalAt (cs : List Char) : Option ℕ :=
  match cs with
  | '[' :: p :: a :: u :: s :: e :: ':' :: rest =>
    if p.toLower = 'p' && a.toLower = 'a' && u.toLower = 'u' &&
        s.toLower = 's' && e.toLower = 'e' then
      (matchPauseDigits rest).map (fun n => 7 + n)
    else none
  | _ => none

/-- Match `MANUAL_PAUSE_SHORTHAND_PATTERN` = `\[(\d+(?:\.\d+)?)s\]` at the
head of `cs`, returning the match length. -/
def matchShorthandAt (cs : List Char) : Option ℕ :=
  match cs with
  | '[' :: rest => (matchPauseDigits rest).map (fun n => 1 + n)
  | _ => none

/-- Generic `finditer`: leftmost non-overlapping matches of `matchAt`. -/
def findPatternGo (matchAt : List Char → Option ℕ) : ℕ → List Char → ℕ → List (ℕ × ℕ)
  | 0, _, _ => []
  | _ + 1, [], _ => []
  | fuel + 1, c :: cs, idx =>
    match matchAt (c :: cs) with
    | some len =>
      (idx, idx + len) :: findPatternGo matchAt fuel ((c :: cs).drop len) (idx + len)
    | none => findPatternGo matchAt fuel cs (idx + 1)

/-- Python `sorted` on pairs (lexicographic tuple order). -/
def sortPairs (l : List (ℕ × ℕ)) : List (ℕ × ℕ) :=
  l.insertionSort (fun x y => (x.1 < y.1 ∨ (x.1 = y.1 ∧ x.2 ≤ y.2)))

/-- The sorted manual pause spans of `insert_auto_pauses`. -/
def manualPauseSpans (text : List Char) : List (ℕ × ℕ) :=
  sortPairs (findPatternGo matchCanonicalAt (text.length + 1) text 0 ++
    findPatternGo matchShorthandAt (text.length + 1) text 0)

/-- `auto_pauses._inside_spans`. -/
def insideSpans (index : ℕ) (spans : List (ℕ × ℕ)) : Bool :=
  spans.any (fun s => s.1 ≤ index && index < s.2)

/-- `auto_pauses._has_manual_pause_near` with the default window 3
(`end >= index - window` over the integers is `end + window >= index` over
the naturals). -/
def hasManualPauseNear (index : ℕ) (spans : List (ℕ × ℕ)) : Bool :=
  spans.any (fun s => s.1 ≤ index + 3 && index ≤ s.2 + 3)

/-- `auto_pauses._in_same_bracket_boundary`: strictly inside a span. -/
def inSameBracketBoundary (position : ℕ) (spans : List (ℕ × ℕ)) : Bool :=
  spans.any (fun s => s.1 < position && position < s.2)

/-- `auto_pauses._next_word`: skip bracket tokens, return the next lowercase
alphabetic run (empty if none before the end of text). -/
def nextWordGo (text : List Char) (bracketSpans : List (ℕ × ℕ)) :
    ℕ → ℕ → List Char
  | 0, _ => []
  | fuel + 1, idx =>
    if idx < text.length then
      if insideSpans idx bracketSpans then
        match bracketSpans.find? (fun s => s.1 ≤ idx && idx < s.2) with
        | some s => nextWordGo text bracketSpans fuel s.2
        | none => []
      else
        let c := text.getD idx ' '
        if pyIsAlpha c then lowerStr ((text.drop idx).takeWhile pyIsAlpha)
        else nextWordGo text bracketSpans fuel (idx + 1)
    else []

/-- `auto_pauses._next_word`. -/
def nextWord (text : List Char) (bracketSpans : List (ℕ × ℕ)) (startIndex : ℕ) :
    List Char :=
  nextWordGo text bracketSpans (text.length + 1) startIndex

/-- `BRACKET_TOKEN_PATTERN.sub(" ", text)`: replace each bracket token by a
single space. -/
def bracketSubGo : ℕ → List Char → List Char
  | 0, cs => cs
  | _ + 1, [] => []
  | fuel + 1, c :: cs =>
    if c = '[' then
      let run := cs.takeWhile (fun d => !(d = '[' || d = ']'))
      if run.isEmpty then c :: bracketSubGo fuel cs
      else
        match cs.drop run.length with
        | ']' :: _ => ' ' :: bracketSubGo fuel (cs.drop (run.length + 1))
        | _ => c :: bracketSubGo fuel cs
    else c :: bracketSubGo fuel cs

/-- Regex `[\w']`. -/
def isWordOrApos (c : Char) : Bool := pyIsWord c || c = '\''

/-- Count the matches of `\b[\w']+\b`: the maximal `[\w']` runs holding at
least one word character (leading or trailing apostrophes only shift the
match inside the run, so each such run counts once). -/
def countWordRunsGo : List Char → Bool → Bool → ℕ → ℕ
  | [], inRun, hasW, count => count + (if inRun && hasW then 1 else 0)
  | c :: cs, inRun, hasW, count =>
    if isWordOrApos c then
      if inRun then countWordRunsGo cs true (hasW || pyIsWord c) count
      else countWordRunsGo cs true (pyIsWord c) count
    else
      countWordRunsGo cs false false (count + (if inRun && hasW then 1 else 0))

/-- `auto_pauses._words_in_sentence`. -/
def wordsInSentence (text : List Char) : ℕ :=
  countWordRunsGo (bracketSubGo (text.length + 1) text) false false 0

/-- The `audiobook` row of `BASE_PAUSES`. -/
def audiobookBase (key : String) : Option ℚ :=
  if key = "comma" then some 0.16
  else if key = "semicolon" then some 0.32
  else if key = "colon" then some 0.36
  else if key = "emdash" then some 0.24
  else if key = "sentence_end" then some 0.55
  else if key = "paragraph" then some 1.15
  else none

/-- The `youtube` row of `BASE_PAUSES`. -/
def youtubeBase (key : String) : Option ℚ :=
  if key = "comma" then some 0.12
  else if key = "semicolon" then some 0.22
  else if key = "colon" then some 0.24
  else if key = "emdash" then some 0.18
  else if key = "sentence_end" then some 0.38
  else if key = "paragraph" then some 0.80
  else none

/-- The `ad` row of `BASE_PAUSES`. -/
def adBase (key : String) : Option ℚ :=
  if key = "comma" then some 0.07
  else if key = "semicolon" then some 0.14
  else if key = "colon" then some 0.16
  else if key = "emdash" then some 0.12
  else if key = "sentence_end" then some 0.26
  else if key = "paragraph" then some 0.55
  else none

/-- `auto_pauses._get_style_base`, together with the style name later
recovered by identity lookup inside `_compute_pause_seconds` (`dramatic`
builds a fresh dict, so its identity lookup yields `None`; any unknown
style resolves to the `audiobook` table). -/
def getStyleBase (style : String) : (String → Option ℚ) × Option String :=
  let sl := style.map Char.toLower
  if sl = "dramatic" then
    (fun k => (audiobookBase k).map (fun v => v * 1.35), none)
  else if sl = "youtube" then (youtubeBase, some "youtube")
  else if sl = "ad" then (adBase, some "ad")
  else (audiobookBase, some "audiobook")

/-- `auto_pauses.DISCOURSE_MARKERS`. -/
def discourseMarkers : List String :=
  ["however", "therefore", "meanwhile", "in fact", "on the other hand", "so", "but"]

/-- Python `next_word.startswith(tuple(m.lower() for m in DISCOURSE_MARKERS))`. -/
def startsWithMarker (nw : List Char) : Bool :=
  discourseMarkers.any (fun m => (m.data.map Char.toLower).isPrefixOf nw)

/-- `auto_pauses._clamp`. -/
def clamp (value minimum maximum : ℚ) : ℚ := max minimum (min maximum value)

/-- The last two steps of `_compute_pause_seconds`: clamp into
`[min_pause, max_pause]`, then scale by 0.65 when `topup_only` applies
(i.e. when it is enabled and the boundary is not a paragraph break). -/
def finalizePause (topupApplies : Bool) (pause2 minPause maxPause : ℚ) : ℚ :=
  if topupApplies then clamp pause2 minPause maxPause * 0.65
  else clamp pause2 minPause maxPause

/-- `auto_pauses._compute_pause_seconds`.  `styleName` is the result of the
source's identity-based reverse lookup of `style_base` in `BASE_PAUSES`
(see `getStyleBase`). -/
def computePauseSeconds (boundaryType : String) (punctuationChar : List Char)
    (styleBase : String → Option ℚ) (styleName : Option String)
    (speedFactor strength : ℚ) (topupOnly : Bool) (minPause maxPause : ℚ)
    (wordsInSent : Option ℕ) (nw : List Char) : ℚ :=
  match styleBase boundaryType with
  | none => 0
  | some baseValue =>
    let pause0 := baseValue / max speedFactor 0.2 * strength
    let pause1 :=
      match wordsInSent with
      | some w =>
        if boundaryType = "sentence_end" then
          pause0 + clamp (((w : ℚ) - 18) / 40) 0 0.35 * 0.25 +
            (if punctuationChar = [('?')] then 0.07 else 0)
        else pause0
      | none => pause0
    let pause2 :=
      if !nw.isEmpty then
        pause1 +
          (if startsWithMarker nw then
            (if boundaryType = "sentence_end" then
              (match styleName with
               | some n => if n = "youtube" then 0.07 else if n = "ad" then 0.04 else 0.10
               | none => 0.10)
             else if boundaryType = "comma" ∨ boundaryType = "semicolon" ∨
                 boundaryType = "colon" ∨ boundaryType = "emdash" then 0.04
             else 0)
           else 0)
      else pause1
    finalizePause (topupOnly && boundaryType ≠ "paragraph") pause2 minPause maxPause

end AutoPauses

namespace AutoPauses

open Pipeline

/-- Round `1000·q` to the nearest integer, ties to even (the rounding of
Python's `f"{q:.3f}"`, idealized over exact rationals). -/
def round3 (q : ℚ) : ℤ :=
  let t := q * 1000
  let fl := t.floor
  let frac := t - (fl : ℚ)
  if frac < 1/2 then fl
  else if 1/2 < frac then fl + 1
  else if fl % 2 = 0 then fl else fl + 1

/-- Decimal digits of a natural number. -/
def natDigitsGo : ℕ → ℕ → List Char → List Char
  | 0, _, acc => acc
  | fuel + 1, n, acc =>
    if n = 0 then acc
    else natDigitsGo fuel (n / 10) (Char.ofNat (48 + n % 10) :: acc)

/-- Decimal digits of a natural number (`"0"` for 0). -/
def natDigits (n : ℕ) : List Char :=
  if n = 0 then [('0')] else natDigitsGo (n + 1) n []

/-- Python `s.rstrip(chars-of-one-char)`. -/
def rstripChar (c : Char) (s : List Char) : List Char :=
  (s.reverse.dropWhile (fun d => d = c)).reverse

/-- `auto_pauses._format_pause`: three decimals, trailing zeros trimmed,
then a trailing dot trimmed, re-adding `".0"` when no dot survives. -/
def formatPause (seconds : ℚ) : List Char :=
  let m := (round3 seconds).toNat
  let fracDigits := natDigits (m % 1000)
  let s0 := natDigits (m / 1000) ++ '.' ::
    (List.replicate (3 - fracDigits.length) '0' ++ fracDigits)
  let s1 := rstripChar '.' (rstripChar '0' s0)
  let s2 := if s1.contains '.' then s1 else s1 ++ ['.', '0']
  ("[pause:").data ++ s2 ++ ("s]").data

/-- `finditer` of `SPACED_DASH_PATTERN` = `\s-\s`, yielding
`match.start() + 1` (the dash position). -/
def spacedDashGo : ℕ → List Char → ℕ → List ℕ
  | 0, _, _ => []
  | _ + 1, [], _ => []
  | fuel + 1, c :: cs, idx =>
    match cs with
    | d :: e :: _ =>
      if pyIsSpace c && d = '-' && pyIsSpace e then
        (idx + 1) :: spacedDashGo fuel (cs.drop 2) (idx + 3)
      else spacedDashGo fuel cs (idx + 1)
    | _ => spacedDashGo fuel cs (idx + 1)

/-- The `spaced_dash_positions` set of `_collect_boundaries_for_segment`
(positions relative to the slice, shifted by `start`). -/
def spacedDashPositions (text : List Char) (start e : ℕ) : List ℕ :=
  (spacedDashGo (e + 1) (pySlice text start e) 0).map (fun p => p + start)

/-- `ELLIPSIS_PATTERN.match(text, idx)` for `\.\.+`: at least two dots
starting at `idx` (checked against the whole text, as in the source). -/
def ellipsisMatchAt (text : List Char) (idx : ℕ) : Bool :=
  text.get? idx = some '.' && text.get? (idx + 1) = some '.'

/-- Scan back from `p` over whitespace; the index of the first non-space
character, if any. -/
def prevNonSpaceFrom (text : List Char) : ℕ → ℕ → Option ℕ
  | 0, _ => none
  | fuel + 1, p =>
    if pyIsSpace (text.getD p ' ') then
      if p = 0 then none else prevNonSpaceFrom text fuel (p - 1)
    else some p

/-- `auto_pauses._should_skip_open_quote_boundary`. -/
def shouldSkipOpenQuote (text : List Char) (idx : ℕ) : Bool :=
  match (if idx = 0 then none else prevNonSpaceFrom text text.length (idx - 1)) with
  | none => false
  | some p =>
    if text.getD p ' ' = '"' || text.getD p ' ' = '\'' then
      p = 0 || pyIsSpace (text.getD (p - 1) ' ')
    else false

/-- The boundary classification chain of `_collect_boundaries_for_segment`
at one scan position (`none` both for non-boundary characters and for the
skipped sentence-end candidates). -/
def boundaryTypeAt (text : List Char) (start e idx : ℕ) (spacedDash : List ℕ) :
    Option String :=
  let c := text.getD idx ' '
  if c = '.' || c = '!' || c = '?' then
    if ellipsisMatchAt text idx then none
    else if c = '.' && decide (start < idx) && decide (idx + 1 < e) &&
        pyIsDigit (text.getD (idx - 1) ' ') && pyIsDigit (text.getD (idx + 1) ' ') then
      none
    else if shouldSkipOpenQuote text idx then none
    else some ("sentence_end")
  else if c = ',' then some ("comma")
  else if c = ';' then some ("semicolon")
  else if c = ':' then some ("colon")
  else if c = '—' || c = '–' || spacedDash.contains idx then some ("emdash")
  else none

/-- The `while insertion_pos < end and text[insertion_pos] in quotes` loop. -/
def advancePastQuotes (text : List Char) (e : ℕ) : ℕ → ℕ → ℕ
  | 0, pos => pos
  | fuel + 1, pos =>
    if pos < e && (text.getD pos ' ' = '"' || text.getD pos ' ' = '\'') then
      advancePastQuotes text e fuel (pos + 1)
    else pos

/-- The scan loop of `auto_pauses._collect_boundaries_for_segment`.
Varying state: fuel, `idx`, `sentence_start` and the accumulated
insertions (the source appends to a fresh local list). -/
def collectGo (text : List Char) (start e : ℕ)
    (bracketSpans manualSpans : List (ℕ × ℕ))
    (styleBase : String → Option ℚ) (styleName : Option String)
    (speedFactor strength : ℚ) (topupOnly : Bool) (minPause maxPause : ℚ)
    (spacedDash : List ℕ) :
    ℕ → ℕ → ℕ → List (ℕ × List Char) → List (ℕ × List Char)
  | 0, _, _, acc => acc
  | fuel + 1, idx, sentenceStart, acc =>
    if idx ≥ e then acc
    else if insideSpans idx bracketSpans then
      collectGo text start e bracketSpans manualSpans styleBase styleName
        speedFactor strength topupOnly minPause maxPause spacedDash
        fuel (idx + 1) sentenceStart acc
    else
      match boundaryTypeAt text start e idx spacedDash with
      | some bt =>
        let wis : Option ℕ :=
          if bt = "sentence_end" then
            some (wordsInSentence (pySlice text sentenceStart (idx + 1)))
          else none
        let newSentenceStart := if bt = "sentence_end" then idx + 1 else sentenceStart
        let insertionPos := advancePastQuotes text e (e + 1) (idx + 1)
        if (inSameBracketBoundary idx bracketSpans ||
            inSameBracketBoundary insertionPos bracketSpans) ||
            hasManualPauseNear insertionPos manualSpans then
          collectGo text start e bracketSpans manualSpans styleBase styleName
            speedFactor strength topupOnly minPause maxPause spacedDash
            fuel (idx + 1) newSentenceStart acc
        else
          let ps := computePauseSeconds bt [text.getD idx ' '] styleBase styleName
            speedFactor strength topupOnly minPause maxPause wis
            (nextWord text bracketSpans insertionPos)
          let acc' :=
            if ps > 0 && !(acc.any (fun pr => pr.1 = insertionPos)) then
              acc ++ [(insertionPos, formatPause ps)]
            else acc
          collectGo text start e bracketSpans manualSpans styleBase styleName
            speedFactor strength topupOnly minPause maxPause spacedDash
            fuel (idx + 1) newSentenceStart acc'
      | none =>
        let newSentenceStart :=
          if text.getD idx ' ' = '\n' || text.getD idx ' ' = '\r' then idx + 1
          else sentenceStart
        collectGo text start e bracketSpans manualSpans styleBase styleName
          speedFactor strength topupOnly minPause maxPause spacedDash
          fuel (idx + 1) newSentenceStart acc

/-- `auto_pauses._collect_boundaries_for_segment`. -/
def collectSegment (text : List Char) (start e : ℕ)
    (bracketSpans manualSpans : List (ℕ × ℕ))
    (styleBase : String → Option ℚ) (styleName : Option String)
    (speedFactor strength : ℚ) (topupOnly : Bool) (minPause maxPause : ℚ) :
    List (ℕ × List Char) :=
  collectGo text start e bracketSpans manualSpans styleBase styleName
    speedFactor strength topupOnly minPause maxPause
    (spacedDashPositions text start e) (e + 1) start start []

/-- Position (relative to `l`) of the last occurrence of `c`. -/
def lastIdxOf (c : Char) (l : List Char) : Option ℕ :=
  match l.reverse.findIdx? (fun d => d = c) with
  | some k => some (l.length - 1 - k)
  | none => none

/-- `finditer` of `re.compile(r"\n\s*\n")`: a newline, greedy whitespace,
then (after backtracking) the last newline of that whitespace run. -/
def paragraphMatchesGo : ℕ → List Char → ℕ → List (ℕ × ℕ)
  | 0, _, _ => []
  | _ + 1, [], _ => []
  | fuel + 1, c :: cs, idx =>
    if c = '\n' then
      match lastIdxOf '\n' (cs.takeWhile pyIsSpace) with
      | some j =>
        (idx, idx + j + 2) :: paragraphMatchesGo fuel (cs.drop (j + 1)) (idx + j + 2)
      | none => paragraphMatchesGo fuel cs (idx + 1)
    else paragraphMatchesGo fuel cs (idx + 1)

/-- All paragraph-break matches in `text`. -/
def paragraphMatches (text : List Char) : List (ℕ × ℕ) :=
  paragraphMatchesGo (text.length + 1) text 0

/-- The final splicing loop of `insert_auto_pauses`: walk the sorted
insertions, copying `text[last_idx:pos]`, the tag, and finally the rest. -/
def splice (text : List Char) : List (ℕ × List Char) → ℕ → List Char
  | [], lastIdx => text.drop lastIdx
  | (p, tag) :: rest, lastIdx =>
    if p < lastIdx then splice text rest lastIdx
    else pySlice text lastIdx p ++ tag ++ splice text rest p

/-- Python `sorted(insertions, key=lambda x: x[0])` (stable). -/
def sortInsertions (l : List (ℕ × List Char)) : List (ℕ × List Char) :=
  l.insertionSort (fun a b => a.1 ≤ b.1)

/-- The per-paragraph step of `insert_auto_pauses`: collect the boundaries
of the segment before the paragraph break, then possibly add the paragraph
pause at the break's end. -/
def paragraphStep (text : List Char) (bracketSpans manualSpans : List (ℕ × ℕ))
    (styleBase : String → Option ℚ) (styleName : Option String)
    (speedFactor strength : ℚ) (topupOnly : Bool) (minPause maxPause : ℚ)
    (st : List (ℕ × List Char) × ℕ) (pm : ℕ × ℕ) :
    List (ℕ × List Char) × ℕ :=
  let ins1 := st.1 ++ collectSegment text st.2 pm.1 bracketSpans manualSpans
    styleBase styleName speedFactor strength topupOnly minPause maxPause
  let boundaryPos := pm.2
  let ins2 :=
    if !insideSpans boundaryPos bracketSpans &&
        !hasManualPauseNear boundaryPos manualSpans then
      let ps := computePauseSeconds ("paragraph") [] styleBase styleName
        speedFactor strength topupOnly minPause maxPause none
        (nextWord text bracketSpans boundaryPos)
      if ps > 0 then ins1 ++ [(boundaryPos, formatPause ps)] else ins1
    else ins1
  (ins2, pm.2)

/-- All insertions computed by `insert_auto_pauses`, in source order. -/
def allInsertions (text : List Char) (style : String)
    (speedFactor strength : ℚ) (topupOnly : Bool) (minPause maxPause : ℚ) :
    List (ℕ × List Char) :=
  let sb := getStyleBase style
  let bracketSpans := bracketTokenSpans text
  let manualSpans := manualPauseSpans text
  let st := (paragraphMatches text).foldl
    (paragraphStep text bracketSpans manualSpans sb.1 sb.2 speedFactor strength
      topupOnly minPause maxPause) ([], 0)
  st.1 ++ collectSegment text st.2 text.length bracketSpans manualSpans
    sb.1 sb.2 speedFactor strength topupOnly minPause maxPause

/-- `auto_pauses.insert_auto_pauses`. -/
def insert_auto_pauses (text : List Char) (style : String)
    (speedFactor strength : ℚ) (topupOnly : Bool) (minPause maxPause : ℚ) :
    List Char :=
  if text.isEmpty then text
  else
    let ins := allInsertions text style speedFactor strength topupOnly minPause maxPause
    if ins.isEmpty then text
    else splice text (sortInsertions ins) 0

end AutoPauses


namespace AutoPauses

open Pipeline

/-- C1 counterexample: with `topup_only = true`, `min_pause = 0.5`,
`max_pause = 1.8` (a valid configuration, `min ≤ max`), the comma pause in
`"Hi, there"` renders as `0.325`, strictly below `min_pause`: the clamp
happens before the ×0.65 top-up scaling. -/
theorem insert_auto_pauses_clamp_counterexample :
    insert_auto_pauses (("Hi, there").data) ("audiobook") 1 1 true 0.5 1.8 =
      ("Hi,[pause:0.325s] there").data ∧
    computePauseSeconds ("comma") [(',')] audiobookBase (some ("audiobook"))
      1 1 true 0.5 1.8 none (("there").data) = 0.325 ∧
    (0.5 : ℚ) ≤ 1.8 ∧ (0.325 : ℚ) < 0.5 := by
  refine ⟨?_, ?_, ?_, ?_⟩ <;> with_unfolding_all decide

/-- The clamp really lands in `[mn, mx]` when `mn ≤ mx`. -/
theorem clamp_bounds (v : ℚ) {mn mx : ℚ} (h : mn ≤ mx) :
    mn ≤ clamp v mn mx ∧ clamp v mn mx ≤ mx :=
  ⟨le_max_left _ _, max_le h (min_le_left _ _)⟩

/-- Bounds for the clamp-then-scale tail of `_compute_pause_seconds`. -/
theorem finalizePause_bounds (b : Bool) (v mn mx : ℚ) (h0 : 0 ≤ mn) (h1 : mn ≤ mx) :
    0.65 * mn ≤ finalizePause b v mn mx ∧ finalizePause b v mn mx ≤ mx ∧
    (b = false → mn ≤ finalizePause b v mn mx) := by
  obtain ⟨hlo, hhi⟩ := clamp_bounds v h1
  have hc0 : (0 : ℚ) ≤ clamp v mn mx := le_trans h0 hlo
  unfold finalizePause
  cases b with
  | false =>
    simp only [Bool.false_eq_true, if_false]
    refine ⟨?_, hhi, fun _ => hlo⟩
    nlinarith
  | true =>
    simp only [if_true]
    refine ⟨?_, ?_, fun hc => by simp at hc⟩
    · nlinarith
    · nlinarith

/-- C1 amended: whenever the boundary kind has a base duration and
`0 ≤ min_pause ≤ max_pause`, the computed pause lies in
`[0.65·min_pause, max_pause]`; the full `[min_pause, max_pause]` clamp
bound holds whenever `topup_only` is off or the boundary is a paragraph
break (with `topup_only` on, non-paragraph pauses may drop to
`0.65·min_pause`, as the counterexample shows). -/
theorem computePauseSeconds_bounds (bt : String) (punct : List Char)
    (sb : String → Option ℚ) (sn : Option String) (speed strength : ℚ)
    (topup : Bool) (minP maxP : ℚ) (wis : Option ℕ) (nw : List Char) (p : ℚ)
    (hb : sb bt = some p) (h0 : 0 ≤ minP) (h1 : minP ≤ maxP) :
    0.65 * minP ≤
      computePauseSeconds bt punct sb sn speed strength topup minP maxP wis nw ∧
    computePauseSeconds bt punct sb sn speed strength topup minP maxP wis nw ≤ maxP ∧
    (topup = false ∨ bt = "paragraph" →
      minP ≤ computePauseSeconds bt punct sb sn speed strength topup minP maxP wis nw) := by
  unfold computePauseSeconds
  simp only [hb]
  refine ⟨(finalizePause_bounds _ _ _ _ h0 h1).1,
    (finalizePause_bounds _ _ _ _ h0 h1).2.1,
    fun hdisj => (finalizePause_bounds _ _ _ _ h0 h1).2.2 ?_⟩
  rcases hdisj with h | h <;> simp [h]

/-- Witness for the amended C1: concrete bounds at the comma boundary of
the counterexample configuration. -/
theorem computePauseSeconds_bounds_witness :
    0.65 * (0.5 : ℚ) ≤
      computePauseSeconds ("comma") [(',')] audiobookBase (some ("audiobook"))
        1 1 true 0.5 1.8 none (("there").data) ∧
    computePauseSeconds ("comma") [(',')] audiobookBase (some ("audiobook"))
      1 1 true 0.5 1.8 none (("there").data) ≤ 1.8 :=
  ⟨(computePauseSeconds_bounds ("comma") [(',')] audiobookBase (some ("audiobook"))
      1 1 true 0.5 1.8 none (("there").data) 0.16
      (by with_unfolding_all decide) (by with_unfolding_all decide)
      (by with_unfolding_all decide)).1,
   (computePauseSeconds_bounds ("comma") [(',')] audiobookBase (some ("audiobook"))
      1 1 true 0.5 1.8 none (("there").data) 0.16
      (by with_unfolding_all decide) (by with_unfolding_all decide)
      (by with_unfolding_all decide)).2.1⟩

end AutoPauses

namespace AutoPauses

open Pipeline

/-- C3 counterexample: doubling `speed_factor` does not halve every
non-paragraph, non-clamped pause.  (a) With a discourse-marker bump
(`"so"` after the comma), speeds 1 and 2 give 0.2 and 0.12, and
`0.12 ≠ 0.2/2`; all four values are strictly inside `[0.04, 1.8]`.
(b) Below the 0.2 speed floor, doubling 0.1 to 0.2 leaves the pause at 0.8
unchanged. -/
theorem insert_auto_pauses_speed_halving_counterexample :
    insert_auto_pauses (("Hi, so it goes").data) ("audiobook") 1 1 false 0.04 1.8 =
      ("Hi,[pause:0.2s] so it goes").data ∧
    insert_auto_pauses (("Hi, so it goes").data) ("audiobook") 2 1 false 0.04 1.8 =
      ("Hi,[pause:0.12s] so it goes").data ∧
    (0.12 : ℚ) ≠ 0.2 / 2 ∧
    (0.04 : ℚ) < 0.12 ∧ (0.12 : ℚ) < 1.8 ∧ (0.04 : ℚ) < 0.2 ∧ (0.2 : ℚ) < 1.8 ∧
    insert_auto_pauses (("Hi, there").data) ("audiobook") 0.1 1 false 0.04 1.8 =
      ("Hi,[pause:0.8s] there").data ∧
    insert_auto_pauses (("Hi, there").data) ("audiobook") 0.2 1 false 0.04 1.8 =
      ("Hi,[pause:0.8s] there").data := by
  refine ⟨?_, ?_, ?_, ?_, ?_, ?_, ?_, ?_, ?_⟩ <;> with_unfolding_all decide

/-- Halving passes through the clamp-then-scale tail when neither value is
clamped. -/
theorem finalizePause_halving (b : Bool) (v mn mx : ℚ)
    (h1 : mn ≤ v / 2) (h2 : v / 2 ≤ mx) (h3 : mn ≤ v) (h4 : v ≤ mx) :
    finalizePause b (v / 2) mn mx = finalizePause b v mn mx / 2 := by
  unfold finalizePause clamp
  rw [min_eq_right h2, max_eq_right h1, min_eq_right h4, max_eq_right h3]
  split <;> ring

/-- C3 amended: doubling `speed_factor` exactly halves the computed pause
for a non-paragraph boundary, provided the starting speed is at least the
0.2 floor, all additive adjustments vanish (the next word starts no
discourse marker; for a sentence end, the mark is not `?` and the sentence
has at most 18 words), and neither the original nor the halved raw value is
clamped at `min_pause` or `max_pause`. -/
theorem computePauseSeconds_speed_halving (bt : String) (punct : List Char)
    (sb : String → Option ℚ) (sn : Option String) (speed strength : ℚ)
    (topup : Bool) (minP maxP : ℚ) (wis : Option ℕ) (nw : List Char) (p : ℚ)
    (hb : sb bt = some p)
    (hspeed : 0.2 ≤ speed)
    (hnw : startsWithMarker nw = false)
    (hq : bt = "sentence_end" → punct ≠ [('?')])
    (hw18 : ∀ w, wis = some w → (w : ℚ) ≤ 18)
    (hcl1 : minP ≤ p / (2 * speed) * strength)
    (hcl2 : p / (2 * speed) * strength ≤ maxP)
    (hcl3 : minP ≤ p / speed * strength)
    (hcl4 : p / speed * strength ≤ maxP) :
    computePauseSeconds bt punct sb sn (2 * speed) strength topup minP maxP wis nw =
      computePauseSeconds bt punct sb sn speed strength topup minP maxP wis nw / 2 := by
  have hmax1 : max speed (0.2 : ℚ) = speed := max_eq_left hspeed
  have hmax2 : max (2 * speed) (0.2 : ℚ) = 2 * speed :=
    max_eq_left (by nlinarith)
  have hraw : p / (2 * speed) * strength = p / speed * strength / 2 := by
    rw [show (2 : ℚ) * speed = speed * 2 by ring, ← div_div]
    ring
  unfold computePauseSeconds
  rcases wis with _ | w
  · simp only [hb, hmax1, hmax2, hnw, Bool.false_eq_true, if_false, add_zero, ite_self]
    rw [hraw]
    exact finalizePause_halving _ _ _ _ (hraw ▸ hcl1) (hraw ▸ hcl2) hcl3 hcl4
  · have h18 : (w : ℚ) ≤ 18 := hw18 w rfl
    have hcl0 : clamp (((w : ℚ) - 18) / 40) 0 0.35 = 0 := by
      unfold clamp
      rw [min_eq_right (by nlinarith), max_eq_left (by nlinarith)]
    by_cases hbt : bt = "sentence_end"
    · subst hbt
      have hqq : punct ≠ [('?')] := hq rfl
      simp only [hb, hmax1, hmax2, hnw, hqq, hcl0, zero_mul, add_zero,
        Bool.false_eq_true, if_false, ite_self, if_true, eq_self_iff_true,
        ite_false, ite_true]
      rw [hraw]
      exact finalizePause_halving _ _ _ _ (hraw ▸ hcl1) (hraw ▸ hcl2) hcl3 hcl4
    · simp only [hb, hmax1, hmax2, hnw, hbt, Bool.false_eq_true, if_false, add_zero,
        ite_self, ite_false]
      rw [hraw]
      exact finalizePause_halving _ _ _ _ (hraw ▸ hcl1) (hraw ▸ hcl2) hcl3 hcl4

/-- Witness for the amended C3: the comma pause of the audiobook style at
speeds 2 and 1 (no discourse marker, no clamping). -/
theorem computePauseSeconds_speed_halving_witness :
    computePauseSeconds ("comma") [(',')] audiobookBase (some ("audiobook"))
      (2 * 1) 1 false 0.04 1.8 none (("there").data) =
      computePauseSeconds ("comma") [(',')] audiobookBase (some ("audiobook"))
        1 1 false 0.04 1.8 none (("there").data) / 2 :=
  computePauseSeconds_speed_halving ("comma") [(',')] audiobookBase
    (some ("audiobook")) 1 1 false 0.04 1.8 none (("there").data) 0.16
    (by with_unfolding_all decide) (by with_unfolding_all decide)
    (by with_unfolding_all decide)
    (fun h => absurd h (by decide)) (fun w hw => by cases hw)
    (by with_unfolding_all decide) (by with_unfolding_all decide)
    (by with_unfolding_all decide) (by with_unfolding_all decide)

end AutoPauses

namespace AutoPauses

open Pipeline

/-- C4 counterexample: in `"Hi... yes"` the dot at index 4 is part of the
ellipsis run (indices 2–4 are all dots), yet it is classified as a
sentence end and a pause is inserted right after it. -/
theorem insert_auto_pauses_ellipsis_counterexample :
    insert_auto_pauses (("Hi... yes").data) ("audiobook") 1 1 false 0.04 1.8 =
      ("Hi...[pause:0.55s] yes").data ∧
    ("Hi... yes").data.get? 2 = some ('.') ∧
    ("Hi... yes").data.get? 3 = some ('.') ∧
    ("Hi... yes").data.get? 4 = some ('.') ∧
    boundaryTypeAt (("Hi... yes").data) 0 9 4 [] = some ("sentence_end") := by
  refine ⟨?_, ?_, ?_, ?_, ?_⟩ <;> with_unfolding_all decide

/-- C4 amended: a `.`, `!` or `?` at a scan position is classified as a
sentence-end boundary iff it is not a dot immediately followed by another
dot (so only the non-final dots of an ellipsis run are excluded), it is not
a decimal dot between two digits inside the segment, and it does not
directly follow an opening quotation boundary. -/
theorem boundaryTypeAt_sentence_end_iff (text : List Char) (start e idx : ℕ)
    (sd : List ℕ)
    (hc : text.getD idx ' ' = '.' ∨ text.getD idx ' ' = '!' ∨ text.getD idx ' ' = '?') :
    boundaryTypeAt text start e idx sd = some ("sentence_end") ↔
      ¬(text.get? idx = some ('.') ∧ text.get? (idx + 1) = some ('.')) ∧
      ¬(text.getD idx ' ' = '.' ∧ start < idx ∧ idx + 1 < e ∧
          pyIsDigit (text.getD (idx - 1) ' ') = true ∧
          pyIsDigit (text.getD (idx + 1) ' ') = true) ∧
      shouldSkipOpenQuote text idx = false := by
  unfold boundaryTypeAt
  have hcond : (text.getD idx ' ' = '.' || text.getD idx ' ' = '!' ||
      text.getD idx ' ' = '?') = true := by
    rcases hc with h | h | h <;> rw [h] <;> decide
  rw [if_pos hcond]
  by_cases h1 : ellipsisMatchAt text idx = true
  · rw [if_pos h1]
    simp only [ellipsisMatchAt, Bool.and_eq_true, decide_eq_true_eq] at h1
    exact iff_of_false (fun hx => Option.noConfusion hx) (fun hy => hy.1 h1)
  · rw [if_neg h1]
    have h1' : ¬(text.get? idx = some ('.') ∧ text.get? (idx + 1) = some ('.')) := by
      simpa [ellipsisMatchAt] using h1
    by_cases h2 : (text.getD idx ' ' = '.' && decide (start < idx) &&
        decide (idx + 1 < e) && pyIsDigit (text.getD (idx - 1) ' ') &&
        pyIsDigit (text.getD (idx + 1) ' ')) = true
    · rw [if_pos h2]
      simp only [Bool.and_eq_true, decide_eq_true_eq] at h2
      exact iff_of_false (fun hx => Option.noConfusion hx)
        (fun hy => hy.2.1 ⟨h2.1.1.1.1, h2.1.1.1.2, h2.1.1.2, h2.1.2, h2.2⟩)
    · rw [if_neg h2]
      by_cases h3 : shouldSkipOpenQuote text idx = true
      · rw [if_pos h3]
        refine iff_of_false (fun hx => Option.noConfusion hx) (fun hy => ?_)
        rw [hy.2.2] at h3
        exact Bool.noConfusion h3
      · rw [if_neg h3]
        simp only [Bool.not_eq_true] at h3
        refine iff_of_true rfl ⟨h1', ?_, h3⟩
        intro hdec
        apply h2
        simp only [Bool.and_eq_true, decide_eq_true_eq]
        exact ⟨⟨⟨⟨hdec.1, hdec.2.1⟩, hdec.2.2.1⟩, hdec.2.2.2.1⟩, hdec.2.2.2.2⟩

/-- Witness for the amended C4: the `!` in `"a! b"` satisfies all three
conditions and is classified as a sentence end. -/
theorem boundaryTypeAt_sentence_end_iff_witness :
    boundaryTypeAt (("a! b").data) 0 4 1 [] = some ("sentence_end") :=
  (boundaryTypeAt_sentence_end_iff (("a! b").data) 0 4 1 []
      (Or.inr (Or.inl (by decide)))).mpr
    ⟨by decide, by decide, by decide⟩

end AutoPauses

namespace AutoPauses

open Pipeline

/-- Total tag length inserted at positions at most `s`. -/
def addedBefore (ins : List (ℕ × List Char)) (s : ℕ) : ℕ :=
  ((ins.filter (fun pt => pt.1 ≤ s)).map (fun pt => pt.2.length)).sum

theorem addedBefore_cons_le {p : ℕ} {tag : List Char} {ins : List (ℕ × List Char)}
    {s : ℕ} (h : p ≤ s) :
    addedBefore ((p, tag) :: ins) s = tag.length + addedBefore ins s := by
  simp [addedBefore, h]

theorem addedBefore_cons_gt {p : ℕ} {tag : List Char} {ins : List (ℕ × List Char)}
    {s : ℕ} (h : ¬p ≤ s) :
    addedBefore ((p, tag) :: ins) s = addedBefore ins s := by
  simp [addedBefore, h]

theorem addedBefore_eq_zero (ins : List (ℕ × List Char)) (s : ℕ)
    (h : ∀ pt ∈ ins, s < pt.1) : addedBefore ins s = 0 := by
  unfold addedBefore
  rw [List.filter_eq_nil_iff.mpr (fun pt hpt => by
    simp only [decide_eq_true_eq]
    exact fun hc => absurd (h pt hpt) (by omega))]
  rfl

theorem addedBefore_mono (ins : List (ℕ × List Char)) {s t : ℕ} (h : s ≤ t) :
    addedBefore ins s ≤ addedBefore ins t := by
  induction ins with
  | nil => exact le_refl _
  | cons hd tl ih =>
    obtain ⟨p, tag⟩ := hd
    by_cases hp : p ≤ s
    · rw [addedBefore_cons_le hp, addedBefore_cons_le (le_trans hp h)]
      omega
    · rw [addedBefore_cons_gt hp]
      by_cases hp' : p ≤ t
      · rw [addedBefore_cons_le hp']
        omega
      · rw [addedBefore_cons_gt hp']
        exact ih

theorem pySlice_append_right (a b : List Char) (k k' : ℕ) :
    pySlice (a ++ b) (a.length + k) (a.length + k') = pySlice b k k' := by
  unfold pySlice
  rw [List.drop_append]
  congr 1
  omega

theorem pySlice_append_left (a b : List Char) (k k' : ℕ) (h : k' ≤ a.length) :
    pySlice (a ++ b) k k' = pySlice a k k' := by
  unfold pySlice
  by_cases hk : k ≤ a.length
  · rw [List.drop_append_of_le_length hk,
      List.take_append_of_le_length (by rw [List.length_drop]; omega)]
  · have h0 : k' - k = 0 := by omega
    simp [h0]

theorem pySlice_pySlice (text : List Char) (a b c d : ℕ) (h : a + d ≤ b) :
    pySlice (pySlice text a b) c d = pySlice text (a + c) (a + d) := by
  unfold pySlice
  rw [List.drop_take, List.drop_drop, List.take_take]
  congr 1
  omega

/-- Core C9 lemma: a slice of the original with no insertion strictly
inside it reappears verbatim in the spliced output, shifted by the total
length of the tags inserted at or before its start. -/
theorem splice_slice (text : List Char) (s e : ℕ) :
    ∀ (ins : List (ℕ × List Char)) (last : ℕ),
      List.Sorted (fun a b : ℕ × List Char => a.1 ≤ b.1) ins →
      (∀ pt ∈ ins, last ≤ pt.1 ∧ pt.1 ≤ text.length) →
      (∀ pt ∈ ins, ¬(s < pt.1 ∧ pt.1 < e)) →
      last ≤ s → s ≤ e → e ≤ text.length →
      pySlice (splice text ins last) (s - last + addedBefore ins s)
        (e - last + addedBefore ins s) = pySlice text s e := by
  intro ins
  induction ins with
  | nil =>
    intro last _ _ _ hls hse hel
    unfold splice addedBefore
    simp only [List.filter_nil, List.map_nil, List.sum_nil, add_zero]
    unfold pySlice
    rw [List.drop_drop, show last + (s - last) = s by omega]
    congr 1
    omega
  | cons hd tl ih =>
    obtain ⟨p, tag⟩ := hd
    intro last hsort hmem hnin hls hse hel
    have hlp : last ≤ p := (hmem (p, tag) (List.mem_cons_self _ _)).1
    have hplen : p ≤ text.length := (hmem (p, tag) (List.mem_cons_self _ _)).2
    rw [List.sorted_cons] at hsort
    unfold splice
    rw [if_neg (by omega)]
    have hchunk : (pySlice text last p).length = p - last := by
      unfold pySlice
      rw [List.length_take, List.length_drop]
      omega
    by_cases hps : p ≤ s
    · rw [addedBefore_cons_le hps]
      rw [show s - last + (tag.length + addedBefore tl s) =
          (pySlice text last p ++ tag).length + (s - p + addedBefore tl s) from by
        rw [List.length_append, hchunk]; omega]
      rw [show e - last + (tag.length + addedBefore tl s) =
          (pySlice text last p ++ tag).length + (e - p + addedBefore tl s) from by
        rw [List.length_append, hchunk]; omega]
      rw [show pySlice text last p ++ tag ++ splice text tl p =
          (pySlice text last p ++ tag) ++ splice text tl p from rfl]
      rw [pySlice_append_right]
      exact ih p hsort.2
        (fun pt hpt => ⟨hsort.1 pt hpt, (hmem pt (List.mem_cons_of_mem _ hpt)).2⟩)
        (fun pt hpt => hnin pt (List.mem_cons_of_mem _ hpt)) hps hse hel
    · have hsp : s < p := by omega
      have hpe : e ≤ p := by
        rcases Nat.lt_or_ge p e with hcl | hcl
        · exact absurd ⟨hsp, hcl⟩ (hnin (p, tag) (List.mem_cons_self _ _))
        · exact hcl
      rw [addedBefore_cons_gt hps,
        addedBefore_eq_zero tl s (fun pt hpt => lt_of_lt_of_le hsp (hsort.1 pt hpt)),
        add_zero, add_zero, List.append_assoc,
        pySlice_append_left _ _ _ _ (by rw [hchunk]; omega),
        pySlice_pySlice text last p (s - last) (e - last) (by omega),
        show last + (s - last) = s by omega, show last + (e - last) = e by omega]

end AutoPauses

namespace AutoPauses

open Pipeline

theorem advancePastQuotes_le (text : List Char) (e : ℕ) :
    ∀ (fuel pos : ℕ), pos ≤ e → advancePastQuotes text e fuel pos ≤ e := by
  intro fuel
  induction fuel with
  | zero => intro pos h; exact h
  | succ fuel ih =>
    intro pos h
    unfold advancePastQuotes
    split
    · rename_i hcond
      simp only [Bool.and_eq_true, decide_eq_true_eq] at hcond
      exact ih (pos + 1) (by omega)
    · exact h

theorem lastIdxOf_some_lt {c : Char} {l : List Char} {j : ℕ}
    (h : lastIdxOf c l = some j) : j < l.length := by
  unfold lastIdxOf at h
  cases hfind : l.reverse.findIdx? (fun d => d = c) with
  | none => rw [hfind] at h; exact Option.noConfusion h
  | some k =>
    rw [hfind] at h
    have hj : j = l.length - 1 - k := (Option.some.inj h).symm
    cases l with
    | nil => simp at hfind
    | cons a as =>
      simp only [List.length_cons] at hj ⊢
      omega

theorem bracketSpansGo_bounds :
    ∀ (fuel : ℕ) (cs : List Char) (idx : ℕ),
      ∀ sp ∈ bracketSpansGo fuel cs idx,
        idx ≤ sp.1 ∧ sp.1 < sp.2 ∧ sp.2 ≤ idx + cs.length := by
  intro fuel
  induction fuel with
  | zero => intro cs idx sp hsp; simp [bracketSpansGo] at hsp
  | succ fuel ih =>
    intro cs idx sp hsp
    match cs with
    | [] => simp [bracketSpansGo] at hsp
    | c :: cs' =>
      simp only [bracketSpansGo] at hsp
      split at hsp
      · rename_i hbr
        split at hsp
        · have := ih cs' (idx + 1) sp hsp
          simp only [List.length_cons]
          omega
        · rename_i hrun
          split at hsp
          · rename_i rest hdrop
            have hlt : (cs'.takeWhile (fun d => !(d = '[' || d = ']'))).length < cs'.length := by
              have hlen := congrArg List.length hdrop
              rw [List.length_drop] at hlen
              simp only [List.length_cons] at hlen
              omega
            rcases List.mem_cons.mp hsp with heq | hmem
            · subst heq
              simp only [List.length_cons]
              omega
            · have := ih (cs'.drop ((cs'.takeWhile (fun d => !(d = '[' || d = ']'))).length + 1))
                (idx + (cs'.takeWhile (fun d => !(d = '[' || d = ']'))).length + 2) sp hmem
              rw [List.length_drop] at this
              simp only [List.length_cons]
              omega
          · have := ih cs' (idx + 1) sp hsp
            simp only [List.length_cons]
            omega
      · have := ih cs' (idx + 1) sp hsp
        simp only [List.length_cons]
        omega

theorem paragraphMatchesGo_bounds :
    ∀ (fuel : ℕ) (cs : List Char) (idx : ℕ),
      ∀ pm ∈ paragraphMatchesGo fuel cs idx,
        idx ≤ pm.1 ∧ pm.1 < pm.2 ∧ pm.2 ≤ idx + cs.length := by
  intro fuel
  induction fuel with
  | zero => intro cs idx pm hpm; simp [paragraphMatchesGo] at hpm
  | succ fuel ih =>
    intro cs idx pm hpm
    match cs with
    | [] => simp [paragraphMatchesGo] at hpm
    | c :: cs' =>
      rw [paragraphMatchesGo] at hpm
      split at hpm
      · split at hpm
        · rename_i j hj
          have hjlt : j < (cs'.takeWhile pyIsSpace).length := lastIdxOf_some_lt hj
          have hjcs : j < cs'.length :=
            lt_of_lt_of_le hjlt (List.takeWhile_prefix _).length_le
          rcases List.mem_cons.mp hpm with heq | hmem
          · subst heq
            simp only [List.length_cons]
            omega
          · have := ih (cs'.drop (j + 1)) (idx + j + 2) pm hmem
            rw [List.length_drop] at this
            simp only [List.length_cons]
            omega
        · have := ih cs' (idx + 1) pm hpm
          simp only [List.length_cons]
          omega
      · have := ih cs' (idx + 1) pm hpm
        simp only [List.length_cons]
        omega

theorem bracketTokenSpans_bounds (text : List Char) :
    ∀ sp ∈ bracketTokenSpans text, sp.1 < sp.2 ∧ sp.2 ≤ text.length := by
  intro sp hsp
  have := bracketSpansGo_bounds (text.length + 1) text 0 sp hsp
  omega

theorem paragraphMatches_bounds (text : List Char) :
    ∀ pm ∈ paragraphMatches text, pm.1 < pm.2 ∧ pm.2 ≤ text.length := by
  intro pm hpm
  have := paragraphMatchesGo_bounds (text.length + 1) text 0 pm hpm
  omega

end AutoPauses

namespace AutoPauses

open Pipeline

theorem mem_ite_append_invariant {α : Type} {P : α → Prop} {c : Prop} [Decidable c]
    {acc : List α} {x : α} (hacc : ∀ y ∈ acc, P y) (hx : P x) :
    ∀ y ∈ (if c then acc ++ [x] else acc), P y := by
  intro y hy
  split at hy
  · rcases List.mem_append.mp hy with h | h
    · exact hacc y h
    · rw [List.mem_singleton.mp h]
      exact hx
  · exact hacc y hy

theorem inSameBracketBoundary_false {p : ℕ} {spans : List (ℕ × ℕ)}
    (h : inSameBracketBoundary p spans = false) :
    ∀ sp ∈ spans, ¬(sp.1 < p ∧ p < sp.2) := by
  simp only [inSameBracketBoundary, List.any_eq_false, Bool.and_eq_true,
    decide_eq_true_eq, not_and] at h
  intro sp hsp hc
  exact h sp hsp hc.1 hc.2

theorem insideSpans_false {p : ℕ} {spans : List (ℕ × ℕ)}
    (h : insideSpans p spans = false) :
    ∀ sp ∈ spans, ¬(sp.1 < p ∧ p < sp.2) := by
  simp only [insideSpans, List.any_eq_false, Bool.and_eq_true,
    decide_eq_true_eq, not_and] at h
  intro sp hsp hc
  exact h sp hsp (by omega) hc.2

theorem hasManualPauseNear_false_strict {p : ℕ} {spans : List (ℕ × ℕ)}
    (h : hasManualPauseNear p spans = false) :
    ∀ sp ∈ spans, ¬(sp.1 < p ∧ p < sp.2) := by
  simp only [hasManualPauseNear, List.any_eq_false, Bool.and_eq_true,
    decide_eq_true_eq, not_and] at h
  intro sp hsp hc
  exact h sp hsp (by omega) (by omega)

/-- Every insertion collected by the segment scan lies within the text and
never strictly inside a bracket-token span or a manual-pause span (the scan
suppresses any such candidate before appending). -/
theorem collectGo_invariant (text : List Char) (start e : ℕ)
    (bs ms : List (ℕ × ℕ)) (sb : String → Option ℚ) (sn : Option String)
    (spd str : ℚ) (top : Bool) (mn mx : ℚ) (sd : List ℕ)
    (he : e ≤ text.length) :
    ∀ (fuel idx ss : ℕ) (acc : List (ℕ × List Char)),
      (∀ pt ∈ acc, pt.1 ≤ text.length ∧
        (∀ b ∈ bs, ¬(b.1 < pt.1 ∧ pt.1 < b.2)) ∧
        (∀ m ∈ ms, ¬(m.1 < pt.1 ∧ pt.1 < m.2))) →
      ∀ pt ∈ collectGo text start e bs ms sb sn spd str top mn mx sd fuel idx ss acc,
        pt.1 ≤ text.length ∧
        (∀ b ∈ bs, ¬(b.1 < pt.1 ∧ pt.1 < b.2)) ∧
        (∀ m ∈ ms, ¬(m.1 < pt.1 ∧ pt.1 < m.2)) := by
  intro fuel
  induction fuel with
  | zero =>
    intro idx ss acc hacc pt hpt
    simp only [collectGo] at hpt
    exact hacc pt hpt
  | succ fuel ih =>
    intro idx ss acc hacc pt hpt
    simp only [collectGo] at hpt
    split at hpt
    · exact hacc pt hpt
    · rename_i hidx
      split at hpt
      · exact ih _ _ _ hacc pt hpt
      · split at hpt
        · rename_i bt hbt
          split at hpt
          · exact ih _ _ _ hacc pt hpt
          · rename_i hsup
            refine ih _ _ _ ?_ pt hpt
            refine mem_ite_append_invariant hacc ?_
            have hple : advancePastQuotes text e (e + 1) (idx + 1) ≤ e :=
              advancePastQuotes_le text e (e + 1) (idx + 1) (by omega)
            simp only [Bool.or_eq_true, not_or, Bool.not_eq_true] at hsup
            exact ⟨le_trans hple he, inSameBracketBoundary_false hsup.1.2,
              hasManualPauseNear_false_strict hsup.2⟩
        · exact ih _ _ _ hacc pt hpt

end AutoPauses

namespace AutoPauses

open Pipeline

/-- The paragraph step preserves the position invariant. -/
theorem paragraphStep_invariant (text : List Char) (bs ms : List (ℕ × ℕ))
    (sb : String → Option ℚ) (sn : Option String) (spd str : ℚ) (top : Bool)
    (mn mx : ℚ) (st : List (ℕ × List Char) × ℕ) (pm : ℕ × ℕ)
    (hpm1 : pm.1 ≤ text.length) (hpm2 : pm.2 ≤ text.length)
    (hst : ∀ pt ∈ st.1, pt.1 ≤ text.length ∧
      (∀ b ∈ bs, ¬(b.1 < pt.1 ∧ pt.1 < b.2)) ∧
      (∀ m ∈ ms, ¬(m.1 < pt.1 ∧ pt.1 < m.2))) :
    ∀ pt ∈ (paragraphStep text bs ms sb sn spd str top mn mx st pm).1,
      pt.1 ≤ text.length ∧
      (∀ b ∈ bs, ¬(b.1 < pt.1 ∧ pt.1 < b.2)) ∧
      (∀ m ∈ ms, ¬(m.1 < pt.1 ∧ pt.1 < m.2)) := by
  have hins1 : ∀ pt ∈ st.1 ++ collectSegment text st.2 pm.1 bs ms sb sn spd str
      top mn mx, pt.1 ≤ text.length ∧
      (∀ b ∈ bs, ¬(b.1 < pt.1 ∧ pt.1 < b.2)) ∧
      (∀ m ∈ ms, ¬(m.1 < pt.1 ∧ pt.1 < m.2)) := by
    intro pt hpt
    rcases List.mem_append.mp hpt with h | h
    · exact hst pt h
    · exact collectGo_invariant text st.2 pm.1 bs ms sb sn spd str top mn mx _
        hpm1 _ _ _ [] (fun pt2 hpt2 => absurd hpt2 (List.not_mem_nil pt2)) pt h
  intro pt hpt
  simp only [paragraphStep] at hpt
  split at hpt
  · rename_i hpcond
    simp only [Bool.and_eq_true, Bool.not_eq_eq_eq_not, Bool.not_true] at hpcond
    refine mem_ite_append_invariant hins1 ?_ pt hpt
    exact ⟨hpm2, insideSpans_false hpcond.1, hasManualPauseNear_false_strict hpcond.2⟩
  · exact hins1 pt hpt

/-- Every insertion computed by `insert_auto_pauses` lies within the text
and never strictly inside a bracket-token span or a manual-pause span. -/
theorem allInsertions_invariant (text : List Char) (style : String)
    (spd str : ℚ) (top : Bool) (mn mx : ℚ) :
    ∀ pt ∈ allInsertions text style spd str top mn mx,
      pt.1 ≤ text.length ∧
      (∀ b ∈ bracketTokenSpans text, ¬(b.1 < pt.1 ∧ pt.1 < b.2)) ∧
      (∀ m ∈ manualPauseSpans text, ¬(m.1 < pt.1 ∧ pt.1 < m.2)) := by
  unfold allInsertions
  have hfold : ∀ (pms : List (ℕ × ℕ)),
      (∀ pm ∈ pms, pm.1 ≤ text.length ∧ pm.2 ≤ text.length) →
      ∀ (st : List (ℕ × List Char) × ℕ),
      (∀ pt ∈ st.1, pt.1 ≤ text.length ∧
        (∀ b ∈ bracketTokenSpans text, ¬(b.1 < pt.1 ∧ pt.1 < b.2)) ∧
        (∀ m ∈ manualPauseSpans text, ¬(m.1 < pt.1 ∧ pt.1 < m.2))) →
      ∀ pt ∈ (pms.foldl (paragraphStep text (bracketTokenSpans text)
        (manualPauseSpans text) (getStyleBase style).1 (getStyleBase style).2
        spd str top mn mx) st).1,
        pt.1 ≤ text.length ∧
        (∀ b ∈ bracketTokenSpans text, ¬(b.1 < pt.1 ∧ pt.1 < b.2)) ∧
        (∀ m ∈ manualPauseSpans text, ¬(m.1 < pt.1 ∧ pt.1 < m.2)) := by
    intro pms
    induction pms with
    | nil => intro _ st hst pt hpt; exact hst pt hpt
    | cons pm pms ih =>
      intro hb st hst
      rw [List.foldl_cons]
      refine ih (fun q hq => hb q (List.mem_cons_of_mem _ hq)) _ ?_
      exact paragraphStep_invariant text _ _ _ _ _ _ _ _ _ st pm
        (hb pm (List.mem_cons_self _ _)).1 (hb pm (List.mem_cons_self _ _)).2 hst
  intro pt hpt
  rcases List.mem_append.mp hpt with h | h
  · exact hfold (paragraphMatches text)
      (fun pm hpm => ⟨le_of_lt (lt_of_lt_of_le (paragraphMatches_bounds text pm hpm).1
          (paragraphMatches_bounds text pm hpm).2),
        (paragraphMatches_bounds text pm hpm).2⟩)
      ([], 0) (fun pt2 hpt2 => absurd hpt2 (List.not_mem_nil pt2)) pt h
  · exact collectGo_invariant text _ text.length _ _ _ _ _ _ _ _ _ _
      (le_refl _) _ _ _ [] (fun pt2 hpt2 => absurd hpt2 (List.not_mem_nil pt2)) pt h

end AutoPauses

namespace AutoPauses

open Pipeline

/-- C9: `insert_auto_pauses` splices its computed tags into the original
text at sorted offsets without consuming any input character; no insertion
position lies strictly inside a bracket-token span or a manual-pause span,
so every paralinguistic tag and manual pause tag of the input reappears
verbatim (at its shifted offset) and relative order is preserved (the
offset shift is monotone). -/
theorem insert_auto_pauses_preserves_tokens (text : List Char) (style : String)
    (speed strength : ℚ) (topup : Bool) (minP maxP : ℚ) :
    ∃ ins : List (ℕ × List Char),
      insert_auto_pauses text style speed strength topup minP maxP =
        splice text ins 0 ∧
      List.Sorted (fun a b : ℕ × List Char => a.1 ≤ b.1) ins ∧
      (∀ pt ∈ ins, pt.1 ≤ text.length ∧
        (∀ sp ∈ bracketTokenSpans text, ¬(sp.1 < pt.1 ∧ pt.1 < sp.2)) ∧
        (∀ sp ∈ manualPauseSpans text, ¬(sp.1 < pt.1 ∧ pt.1 < sp.2))) ∧
      (∀ sp ∈ bracketTokenSpans text,
        pySlice (insert_auto_pauses text style speed strength topup minP maxP)
          (sp.1 + addedBefore ins sp.1) (sp.2 + addedBefore ins sp.1) =
          pySlice text sp.1 sp.2) ∧
      (∀ sp ∈ manualPauseSpans text, sp.1 < sp.2 → sp.2 ≤ text.length →
        pySlice (insert_auto_pauses text style speed strength topup minP maxP)
          (sp.1 + addedBefore ins sp.1) (sp.2 + addedBefore ins sp.1) =
          pySlice text sp.1 sp.2) ∧
      (∀ s1 e1 s2 : ℕ, s1 ≤ e1 → e1 ≤ s2 →
        e1 + addedBefore ins s1 ≤ s2 + addedBefore ins s2) := by
  refine ⟨sortInsertions (allInsertions text style speed strength topup minP maxP),
    ?_, ?_, ?_, ?_, ?_, ?_⟩
  case refine_2 =>
    unfold sortInsertions
    haveI : IsTotal (ℕ × List Char) (fun a b : ℕ × List Char => a.1 ≤ b.1) :=
      ⟨fun a b => Nat.le_total a.1 b.1⟩
    haveI : IsTrans (ℕ × List Char) (fun a b : ℕ × List Char => a.1 ≤ b.1) :=
      ⟨fun _ _ _ hab hbc => le_trans hab hbc⟩
    exact List.sorted_insertionSort _ _
  case refine_1 =>
    simp only [insert_auto_pauses]
    by_cases ht : text.isEmpty = true
    · rw [if_pos ht]
      have htl : text = [] := by simpa [List.isEmpty_iff] using ht
      subst htl
      with_unfolding_all rfl
    · rw [if_neg ht]
      by_cases hi : (allInsertions text style speed strength topup minP maxP).isEmpty = true
      · rw [if_pos hi]
        have h0 : allInsertions text style speed strength topup minP maxP = [] := by
          simpa [List.isEmpty_iff] using hi
        rw [h0]
        with_unfolding_all rfl
      · rw [if_neg hi]
  all_goals
    have hmem : ∀ pt ∈ sortInsertions (allInsertions text style speed strength
        topup minP maxP), pt.1 ≤ text.length ∧
        (∀ sp ∈ bracketTokenSpans text, ¬(sp.1 < pt.1 ∧ pt.1 < sp.2)) ∧
        (∀ sp ∈ manualPauseSpans text, ¬(sp.1 < pt.1 ∧ pt.1 < sp.2)) := by
      intro pt hpt
      refine allInsertions_invariant text style speed strength topup minP maxP pt ?_
      exact (List.perm_insertionSort _ _).subset hpt
    have hsorted : List.Sorted (fun a b : ℕ × List Char => a.1 ≤ b.1)
        (sortInsertions (allInsertions text style speed strength topup minP maxP)) := by
      unfold sortInsertions
      haveI : IsTotal (ℕ × List Char) (fun a b : ℕ × List Char => a.1 ≤ b.1) :=
        ⟨fun a b => Nat.le_total a.1 b.1⟩
      haveI : IsTrans (ℕ × List Char) (fun a b : ℕ × List Char => a.1 ≤ b.1) :=
        ⟨fun _ _ _ hab hbc => le_trans hab hbc⟩
      exact List.sorted_insertionSort _ _
    have heq : insert_auto_pauses text style speed strength topup minP maxP =
        splice text (sortInsertions (allInsertions text style speed strength
          topup minP maxP)) 0 := by
      simp only [insert_auto_pauses]
      by_cases ht : text.isEmpty = true
      · rw [if_pos ht]
        have htl : text = [] := by simpa [List.isEmpty_iff] using ht
        subst htl
        with_unfolding_all rfl
      · rw [if_neg ht]
        by_cases hi : (allInsertions text style speed strength topup minP maxP).isEmpty = true
        · rw [if_pos hi]
          have h0 : allInsertions text style speed strength topup minP maxP = [] := by
            simpa [List.isEmpty_iff] using hi
          rw [h0]
          with_unfolding_all rfl
        · rw [if_neg hi]
  case refine_3 => exact hmem
  case refine_4 =>
    intro sp hsp
    obtain ⟨hlt, hle⟩ := bracketTokenSpans_bounds text sp hsp
    rw [heq]
    have := splice_slice text sp.1 sp.2
      (sortInsertions (allInsertions text style speed strength topup minP maxP)) 0
      hsorted (fun pt hpt => ⟨Nat.zero_le _, (hmem pt hpt).1⟩)
      (fun pt hpt => (hmem pt hpt).2.1 sp hsp)
      (Nat.zero_le _) (le_of_lt hlt) hle
    simpa using this
  case refine_5 =>
    intro sp hsp hlt hle
    rw [heq]
    have := splice_slice text sp.1 sp.2
      (sortInsertions (allInsertions text style speed strength topup minP maxP)) 0
      hsorted (fun pt hpt => ⟨Nat.zero_le _, (hmem pt hpt).1⟩)
      (fun pt hpt => (hmem pt hpt).2.2 sp hsp)
      (Nat.zero_le _) (le_of_lt hlt) hle
    simpa using this
  case refine_6 =>
    intro s1 e1 s2 h1 h2
    have := addedBefore_mono
      (sortInsertions (allInsertions text style speed strength topup minP maxP))
      (le_trans h1 h2)
    omega

/-- Witness for C9 at a concrete input: the `[laugh]` token of
`"[laugh] hi"` survives the annotation verbatim at its shifted offset. -/
theorem insert_auto_pauses_preserves_tokens_witness :
    ∃ ins : List (ℕ × List Char),
      insert_auto_pauses (("[laugh] hi").data) ("audiobook") 1 1 false 0.04 1.8 =
        splice (("[laugh] hi").data) ins 0 ∧
      pySlice (insert_auto_pauses (("[laugh] hi").data) ("audiobook") 1 1 false 0.04 1.8)
        (0 + addedBefore ins 0) (7 + addedBefore ins 0) =
        pySlice (("[laugh] hi").data) 0 7 := by
  obtain ⟨ins, h1, _, _, h4, _, _⟩ :=
    insert_auto_pauses_preserves_tokens (("[laugh] hi").data) ("audiobook") 1 1
      false 0.04 1.8
  exact ⟨ins, h1, h4 (0, 7) (by with_unfolding_all decide)⟩

end AutoPauses

namespace Spans

open Pipeline

/-- Specification-side flatness of a text's brackets: scanning left to
right (state 0 = outside, 1 = just after `[`, 2 = inside a token), no `[`
occurs inside a token and no token is empty.  Stray `]` outside tokens and
an unterminated trailing `[` are allowed (every scanner ignores them). -/
def flatScan : List Char → ℕ → Bool
  | [], _ => true
  | c :: cs, st =>
    if st = 0 then
      if c = '[' then flatScan cs 1 else flatScan cs 0
    else if st = 1 then
      if c = '[' || c = ']' then false else flatScan cs 2
    else
      if c = '[' then false
      else if c = ']' then flatScan cs 0
      else flatScan cs 2

/-- Inside a token, a flat text consists of non-bracket characters either
to the end of the text or up to a closing `]` after which the text is flat
again. -/
theorem flat_inside_decomp :
    ∀ cs : List Char, flatScan cs 2 = true →
      (∀ x ∈ cs, (!(x = '[' || x = ']')) = true) ∨
      (∃ run rest, cs = run ++ ']' :: rest ∧
        (∀ x ∈ run, (!(x = '[' || x = ']')) = true) ∧ flatScan rest 0 = true) := by
  intro cs
  induction cs with
  | nil => intro _; left; intro x hx; exact absurd hx (List.not_mem_nil x)
  | cons c cs ih =>
    intro h
    rw [flatScan] at h
    simp only [if_neg (by omega : ¬(2 : ℕ) = 0), if_neg (by omega : ¬(2 : ℕ) = 1)] at h
    by_cases hbr : c = '['
    · rw [if_pos hbr] at h
      exact Bool.noConfusion h
    · rw [if_neg hbr] at h
      by_cases hcl : c = ']'
      · right
        subst hcl
        exact ⟨[], cs, rfl, fun x hx => absurd hx (List.not_mem_nil x),
          by rwa [if_pos rfl] at h⟩
      · rw [if_neg hcl] at h
        have hc : (!(c = '[' || c = ']')) = true := by simp [hbr, hcl]
        rcases ih h with hall | ⟨run, rest, hdec, hnb, hflat⟩
        · left
          intro x hx
          rcases List.mem_cons.mp hx with rfl | hx'
          · exact hc
          · exact hall x hx'
        · right
          refine ⟨c :: run, rest, by rw [hdec]; rfl, ?_, hflat⟩
          intro x hx
          rcases List.mem_cons.mp hx with rfl | hx'
          · exact hc
          · exact hnb x hx'

/-- After an opening `[`, a flat text is either bracket-free to the end or
splits as a nonempty non-bracket run, a `]`, and a flat remainder. -/
theorem flat_open_decomp :
    ∀ cs : List Char, flatScan cs 1 = true →
      (∀ x ∈ cs, (!(x = '[' || x = ']')) = true) ∨
      (∃ run rest, cs = run ++ ']' :: rest ∧ run ≠ [] ∧
        (∀ x ∈ run, (!(x = '[' || x = ']')) = true) ∧ flatScan rest 0 = true) := by
  intro cs h
  match cs with
  | [] => left; intro x hx; exact absurd hx (List.not_mem_nil x)
  | c :: cs' =>
    rw [flatScan] at h
    simp only [if_neg (by omega : ¬(1 : ℕ) = 0), if_pos rfl] at h
    by_cases hc : (c = '[' || c = ']') = true
    · rw [if_pos hc] at h
      exact Bool.noConfusion h
    · rw [if_neg hc] at h
      have hcnb : (!(c = '[' || c = ']')) = true := by
        simp only [Bool.not_eq_true'] at hc ⊢
        exact Bool.not_eq_true _ ▸ hc
      rcases flat_inside_decomp cs' h with hall | ⟨run, rest, hdec, hnb, hflat⟩
      · left
        intro x hx
        rcases List.mem_cons.mp hx with rfl | hx'
        · exact hcnb
        · exact hall x hx'
      · right
        refine ⟨c :: run, rest, by rw [hdec]; rfl, List.cons_ne_nil c run, ?_, hflat⟩
        intro x hx
        rcases List.mem_cons.mp hx with rfl | hx'
        · exact hcnb
        · exact hnb x hx'

/-- A bracket-free text is flat. -/
theorem flatScan_of_no_brackets :
    ∀ cs : List Char, (∀ x ∈ cs, (!(x = '[' || x = ']')) = true) →
      flatScan cs 0 = true := by
  intro cs
  induction cs with
  | nil => intro _; rfl
  | cons c cs ih =>
    intro h
    have hc := h c (List.mem_cons_self _ _)
    simp only [Bool.not_eq_true', Bool.or_eq_false_iff, decide_eq_false_iff_not] at hc
    rw [flatScan, if_pos rfl, if_neg hc.1]
    exact ih (fun x hx => h x (List.mem_cons_of_mem _ hx))

/-- `findIdx?` locates the closing bracket right after a non-bracket run. -/
theorem findIdx_close (run rest : List Char)
    (h : ∀ x ∈ run, (!(x = '[' || x = ']')) = true) :
    (run ++ ']' :: rest).findIdx? (fun d => d = ']') = some run.length := by
  induction run with
  | nil => simp [List.findIdx?_cons]
  | cons a run ih =>
    have ha := h a (List.mem_cons_self _ _)
    simp only [Bool.not_eq_true', Bool.or_eq_false_iff, decide_eq_false_iff_not] at ha
    rw [List.cons_append, List.findIdx?_cons]
    simp [ha.2, ih (fun x hx => h x (List.mem_cons_of_mem _ hx))]

/-- `findIdx?` finds no closing bracket in a bracket-free list. -/
theorem findIdx_none (cs : List Char)
    (h : ∀ x ∈ cs, (!(x = '[' || x = ']')) = true) :
    cs.findIdx? (fun d => d = ']') = none := by
  induction cs with
  | nil => rfl
  | cons a cs ih =>
    have ha := h a (List.mem_cons_self _ _)
    simp only [Bool.not_eq_true', Bool.or_eq_false_iff, decide_eq_false_iff_not] at ha
    simp [List.findIdx?_cons, ha.2, ih (fun x hx => h x (List.mem_cons_of_mem _ hx))]

/-- `takeWhile` keeps exactly the non-bracket run before a closing bracket. -/
theorem takeWhile_close (run rest : List Char)
    (h : ∀ x ∈ run, (!(x = '[' || x = ']')) = true) :
    (run ++ ']' :: rest).takeWhile (fun d => !(d = '[' || d = ']')) = run := by
  induction run with
  | nil => simp [List.takeWhile_cons]
  | cons a run ih =>
    have ha := h a (List.mem_cons_self _ _)
    rw [List.cons_append, List.takeWhile_cons, if_pos ha,
      ih (fun x hx => h x (List.mem_cons_of_mem _ hx))]

/-- `takeWhile` keeps all of a bracket-free list. -/
theorem takeWhile_self (cs : List Char)
    (h : ∀ x ∈ cs, (!(x = '[' || x = ']')) = true) :
    cs.takeWhile (fun d => !(d = '[' || d = ']')) = cs := by
  induction cs with
  | nil => rfl
  | cons a cs ih =>
    have ha := h a (List.mem_cons_self _ _)
    rw [List.takeWhile_cons, if_pos ha,
      ih (fun x hx => h x (List.mem_cons_of_mem _ hx))]

/-- Dropping the run and its closing bracket leaves the remainder. -/
theorem drop_run_succ (run rest : List Char) :
    (run ++ ']' :: rest).drop (run.length + 1) = rest := by
  rw [show run ++ ']' :: rest = (run ++ [']']) ++ rest by simp]
  rw [show run.length + 1 = (run ++ [']']).length by simp]
  exact List.drop_left _ _

/-- `_find_protected_spans` finds nothing in a bracket-free text. -/
theorem fps_nil :
    ∀ (f : ℕ) (cs : List Char) (idx : ℕ),
      (∀ x ∈ cs, (!(x = '[' || x = ']')) = true) →
      TextNorm.findProtectedSpansGo f cs idx = [] := by
  intro f
  induction f with
  | zero => intro cs idx _; rfl
  | succ f ih =>
    intro cs idx h
    rcases cs with _ | ⟨c, cs'⟩
    · rfl
    · have hc := h c (List.mem_cons_self _ _)
      simp only [Bool.not_eq_true', Bool.or_eq_false_iff, decide_eq_false_iff_not] at hc
      rw [TextNorm.findProtectedSpansGo, if_neg hc.1]
      exact ih cs' (idx + 1) (fun x hx => h x (List.mem_cons_of_mem _ hx))

/-- One step of `_find_protected_spans` on a flat terminated token. -/
theorem tn_step_term (f : ℕ) (run rest : List Char) (idx : ℕ)
    (hnb : ∀ x ∈ run, (!(x = '[' || x = ']')) = true) :
    TextNorm.findProtectedSpansGo (f + 1) ('[' :: (run ++ ']' :: rest)) idx =
      (idx, idx + run.length + 2) ::
        TextNorm.findProtectedSpansGo f rest (idx + run.length + 2) := by
  rw [TextNorm.findProtectedSpansGo, if_pos rfl]
  simp only [findIdx_close run rest hnb, drop_run_succ run rest]

/-- One step of `_find_protected_spans` on a stray unterminated bracket. -/
theorem tn_step_unterm (f : ℕ) (cs : List Char) (idx : ℕ)
    (h : ∀ x ∈ cs, (!(x = '[' || x = ']')) = true) :
    TextNorm.findProtectedSpansGo (f + 1) ('[' :: cs) idx =
      TextNorm.findProtectedSpansGo f cs (idx + 1) := by
  rw [TextNorm.findProtectedSpansGo, if_pos rfl]
  simp only [findIdx_none cs h]

/-- One step of the auto-pause bracket scanner on a flat terminated token. -/
theorem ap_step_term (f : ℕ) (run rest : List Char) (idx : ℕ)
    (hne : run ≠ [])
    (hnb : ∀ x ∈ run, (!(x = '[' || x = ']')) = true) :
    AutoPauses.bracketSpansGo (f + 1) ('[' :: (run ++ ']' :: rest)) idx =
      (idx, idx + run.length + 2) ::
        AutoPauses.bracketSpansGo f rest (idx + run.length + 2) := by
  rw [AutoPauses.bracketSpansGo, if_pos rfl]
  have hie : run.isEmpty = false := by
    cases run with
    | nil => exact absurd rfl hne
    | cons a l => rfl
  simp only [takeWhile_close run rest hnb, hie, Bool.false_eq_true, if_false,
    List.drop_left, drop_run_succ run rest]

/-- One step of the auto-pause bracket scanner on a stray unterminated
bracket. -/
theorem ap_step_unterm (f : ℕ) (cs : List Char) (idx : ℕ)
    (h : ∀ x ∈ cs, (!(x = '[' || x = ']')) = true) :
    AutoPauses.bracketSpansGo (f + 1) ('[' :: cs) idx =
      AutoPauses.bracketSpansGo f cs (idx + 1) := by
  rcases cs with _ | ⟨a, cs'⟩
  · rfl
  · rw [AutoPauses.bracketSpansGo, if_pos rfl]
    simp only [takeWhile_self _ h, List.drop_length]
    rw [if_neg (by simp)]

/-- On flat texts the currency-protection scanner and the auto-pause
bracket scanner produce identical span lists. -/
theorem tn_ap_agree :
    ∀ (n : ℕ) (cs : List Char) (idx f1 f2 : ℕ),
      cs.length ≤ n → cs.length < f1 → cs.length < f2 → flatScan cs 0 = true →
      TextNorm.findProtectedSpansGo f1 cs idx = AutoPauses.bracketSpansGo f2 cs idx := by
  intro n
  induction n with
  | zero =>
    intro cs idx f1 f2 hn h1 h2 _
    have hcs : cs = [] := List.eq_nil_of_length_eq_zero (Nat.le_zero.mp hn)
    subst hcs
    obtain ⟨f1', rfl⟩ : ∃ k, f1 = k + 1 := ⟨f1 - 1, by omega⟩
    obtain ⟨f2', rfl⟩ : ∃ k, f2 = k + 1 := ⟨f2 - 1, by omega⟩
    rfl
  | succ n ih =>
    intro cs idx f1 f2 hn h1 h2 hflat
    obtain ⟨f1', rfl⟩ : ∃ k, f1 = k + 1 := ⟨f1 - 1, by omega⟩
    obtain ⟨f2', rfl⟩ : ∃ k, f2 = k + 1 := ⟨f2 - 1, by omega⟩
    rcases cs with _ | ⟨c, cs'⟩
    · rfl
    · by_cases hc : c = '['
      · subst hc
        have hflat1 : flatScan cs' 1 = true := by
          rw [flatScan] at hflat
          simpa using hflat
        rcases flat_open_decomp cs' hflat1 with hall | ⟨run, rest, rfl, hne, hnb, hfrest⟩
        · rw [tn_step_unterm f1' cs' idx hall, ap_step_unterm f2' cs' idx hall]
          have hl : cs'.length ≤ n ∧ cs'.length < f1' ∧ cs'.length < f2' := by
            simp only [List.length_cons] at hn h1 h2
            omega
          exact ih cs' (idx + 1) f1' f2' hl.1 hl.2.1 hl.2.2
            (flatScan_of_no_brackets cs' hall)
        · rw [tn_step_term f1' run rest idx hnb, ap_step_term f2' run rest idx hne hnb]
          have hl : rest.length ≤ n ∧ rest.length < f1' ∧ rest.length < f2' := by
            simp only [List.length_cons, List.length_append] at hn h1 h2
            omega
          rw [ih rest (idx + run.length + 2) f1' f2' hl.1 hl.2.1 hl.2.2 hfrest]
      · rw [TextNorm.findProtectedSpansGo, if_neg hc, AutoPauses.bracketSpansGo, if_neg hc]
        have hflat' : flatScan cs' 0 = true := by
          rw [flatScan] at hflat
          simpa [hc] using hflat
        have hl : cs'.length ≤ n ∧ cs'.length < f1' ∧ cs'.length < f2' := by
          simp only [List.length_cons] at hn h1 h2
          omega
        exact ih cs' (idx + 1) f1' f2' hl.1 hl.2.1 hl.2.2 hflat'

/-- Unfolding of the multi-voice depth scanner on a cons cell. -/
theorem fbr_cons_eq (c : Char) (cs : List Char) (idx depth : ℕ)
    (start : Option ℕ) (acc : List (ℕ × ℕ)) :
    MultiVoice.findBracketRangesGo (c :: cs) idx depth start acc =
      if c = '[' then
        MultiVoice.findBracketRangesGo cs (idx + 1) (depth + 1)
          (if depth = 0 then some idx else start) acc
      else if c = ']' && depth > 0 then
        if depth - 1 = 0 then
          match start with
          | some s =>
            MultiVoice.findBracketRangesGo cs (idx + 1) (depth - 1) none
              (acc ++ [(s, idx + 1)])
          | none => MultiVoice.findBracketRangesGo cs (idx + 1) (depth - 1) none acc
        else
          MultiVoice.findBracketRangesGo cs (idx + 1) (depth - 1) start acc
      else
        MultiVoice.findBracketRangesGo cs (idx + 1) depth start acc := by
  rw [MultiVoice.findBracketRangesGo.eq_def]

/-- The multi-voice depth scanner passes over a non-bracket run unchanged
apart from the running index. -/
theorem fbr_run :
    ∀ (run : List Char), (∀ x ∈ run, (!(x = '[' || x = ']')) = true) →
    ∀ (rest : List Char) (idx depth : ℕ) (start : Option ℕ) (acc : List (ℕ × ℕ)),
      MultiVoice.findBracketRangesGo (run ++ rest) idx depth start acc =
        MultiVoice.findBracketRangesGo rest (idx + run.length) depth start acc := by
  intro run
  induction run with
  | nil => intro _ rest idx depth start acc; simp
  | cons a run ih =>
    intro h rest idx depth start acc
    have ha := h a (List.mem_cons_self _ _)
    simp only [Bool.not_eq_true', Bool.or_eq_false_iff, decide_eq_false_iff_not] at ha
    rw [List.cons_append, fbr_cons_eq, if_neg ha.1,
      if_neg (by simp [ha.2]),
      ih (fun x hx => h x (List.mem_cons_of_mem _ hx)) rest (idx + 1) depth start acc,
      show idx + 1 + run.length = idx + (a :: run).length by
        simp only [List.length_cons]
        omega]

/-- On flat texts the multi-voice depth scanner (from depth 0) produces the
accumulator followed by exactly the currency-protection spans. -/
theorem tn_mv_agree :
    ∀ (n : ℕ) (cs : List Char) (idx f1 : ℕ) (acc : List (ℕ × ℕ)),
      cs.length ≤ n → cs.length < f1 → flatScan cs 0 = true →
      MultiVoice.findBracketRangesGo cs idx 0 none acc =
        acc ++ TextNorm.findProtectedSpansGo f1 cs idx := by
  intro n
  induction n with
  | zero =>
    intro cs idx f1 acc hn h1 _
    have hcs : cs = [] := List.eq_nil_of_length_eq_zero (Nat.le_zero.mp hn)
    subst hcs
    obtain ⟨f1', rfl⟩ : ∃ k, f1 = k + 1 := ⟨f1 - 1, by omega⟩
    simp [MultiVoice.findBracketRangesGo, TextNorm.findProtectedSpansGo]
  | succ n ih =>
    intro cs idx f1 acc hn h1 hflat
    obtain ⟨f1', rfl⟩ : ∃ k, f1 = k + 1 := ⟨f1 - 1, by omega⟩
    rcases cs with _ | ⟨c, cs'⟩
    · simp [MultiVoice.findBracketRangesGo, TextNorm.findProtectedSpansGo]
    · by_cases hc : c = '['
      · subst hc
        have hflat1 : flatScan cs' 1 = true := by
          rw [flatScan] at hflat
          simpa using hflat
        rw [MultiVoice.findBracketRangesGo, if_pos rfl, if_pos rfl]
        rcases flat_open_decomp cs' hflat1 with hall | ⟨run, rest, rfl, hne, hnb, hfrest⟩
        · have hpass := fbr_run cs' hall [] (idx + 1) (0 + 1) (some idx) acc
          rw [List.append_nil] at hpass
          rw [hpass, MultiVoice.findBracketRangesGo,
            tn_step_unterm f1' cs' idx hall, fps_nil f1' cs' (idx + 1) hall,
            List.append_nil]
        · rw [fbr_run run hnb (']' :: rest) (idx + 1) (0 + 1) (some idx) acc,
            MultiVoice.findBracketRangesGo, if_neg (by decide),
            if_pos (by decide), if_pos (by decide)]
          have hl : rest.length ≤ n ∧ rest.length < f1' := by
            simp only [List.length_cons, List.length_append] at hn h1
            omega
          rw [show (0 : ℕ) + 1 - 1 = 0 from rfl,
            ih rest (idx + 1 + run.length + 1) f1' (acc ++ [(idx, idx + 1 + run.length + 1)])
              hl.1 hl.2 hfrest,
            tn_step_term f1' run rest idx hnb,
            show idx + 1 + run.length + 1 = idx + run.length + 2 by omega]
          simp [List.append_assoc]
      · rw [MultiVoice.findBracketRangesGo, if_neg hc, if_neg (by simp [hc]),
          TextNorm.findProtectedSpansGo, if_neg hc]
        have hflat' : flatScan cs' 0 = true := by
          rw [flatScan] at hflat
          simpa [hc] using hflat
        have hl : cs'.length ≤ n ∧ cs'.length < f1' := by
          simp only [List.length_cons] at hn h1
          omega
        exact ih cs' (idx + 1) f1' acc hl.1 hl.2 hflat'

end Spans

namespace Spans

/-- C5 counterexample: on `"[a[b]c]"` the four components use three
different bracket-span computations. The depth-tracking voice segmenter
(`_find_bracket_ranges`) yields the non-nested span `(0, 7)`; the currency
normalizer's `_find_protected_spans` (regex `\[[^\]]*\]`, closing at the
FIRST `]`) and the pronunciation substituter (which reuses its behaviour)
yield `(0, 5)`; the auto-pause annotator's `BRACKET_TOKEN_PATTERN`
(`\[[^\[\]]+\]`) skips the outer `[` and yields the inner token `(2, 5)`.
So the spans are NOT, for every text, the depth-tracking non-nested
spans. -/
theorem bracket_spans_counterexample :
    MultiVoice.findBracketRanges (("[a[b]c]").data) = [(0, 7)] ∧
    TextNorm.findProtectedSpans (("[a[b]c]").data) = [(0, 5)] ∧
    Pron.findBracketSpans (("[a[b]c]").data) = [(0, 5)] ∧
    AutoPauses.bracketTokenSpans (("[a[b]c]").data) = [(2, 5)] ∧
    ¬ TextNorm.findProtectedSpans (("[a[b]c]").data) =
        MultiVoice.findBracketRanges (("[a[b]c]").data) ∧
    ¬ AutoPauses.bracketTokenSpans (("[a[b]c]").data) =
        TextNorm.findProtectedSpans (("[a[b]c]").data) := by
  decide

/-- C5 (amended): the pronunciation substituter's bracket spans are always
exactly the currency normalizer's protected spans; and on `flat` texts —
no `[` inside a bracket token and no empty token `[]` (stray `]` and an
unterminated trailing `[` are allowed) — the voice segmenter's
depth-tracking spans and the auto-pause annotator's token spans also
coincide with them, so there all four components protect exactly the same
non-nested spans. -/
theorem bracket_spans_refined :
    (∀ text : List Char,
      Pron.findBracketSpans text = TextNorm.findProtectedSpans text) ∧
    (∀ text : List Char, flatScan text 0 = true →
      MultiVoice.findBracketRanges text = TextNorm.findProtectedSpans text ∧
      AutoPauses.bracketTokenSpans text = TextNorm.findProtectedSpans text) := by
  refine ⟨fun text => rfl, fun text hflat => ⟨?_, ?_⟩⟩
  · have h := tn_mv_agree text.length text 0 (text.length + 1) []
      (le_refl _) (by omega) hflat
    simpa [MultiVoice.findBracketRanges, TextNorm.findProtectedSpans] using h
  · exact (tn_ap_agree text.length text 0 (text.length + 1) (text.length + 1)
      (le_refl _) (by omega) (by omega) hflat).symm

/-- Witness for the amended C5: `"a [x] b, [y]"` is flat and all four
span computations give `[(2, 5), (9, 12)]`. -/
theorem bracket_spans_refined_witness :
    flatScan (("a [x] b, [y]").data) 0 = true ∧
    Pron.findBracketSpans (("a [x] b, [y]").data) =
      TextNorm.findProtectedSpans (("a [x] b, [y]").data) ∧
    MultiVoice.findBracketRanges (("a [x] b, [y]").data) =
      TextNorm.findProtectedSpans (("a [x] b, [y]").data) ∧
    AutoPauses.bracketTokenSpans (("a [x] b, [y]").data) =
      TextNorm.findProtectedSpans (("a [x] b, [y]").data) ∧
    TextNorm.findProtectedSpans (("a [x] b, [y]").data) = [(2, 5), (9, 12)] :=
  ⟨by decide, bracket_spans_refined.1 _,
    (bracket_spans_refined.2 _ (by decide)).1,
    (bracket_spans_refined.2 _ (by decide)).2,
    by decide⟩

end Spans
